import Mathlib

/-!
Shallow embedding of the ElementalDB table engine (`ElementalDB.py`).

Python dictionaries are modelled as association lists (`List (key × value)`):
a Python `dict` never holds duplicate keys, and all reachable states here keep
their key lists `Nodup`.  Lookup, in-place mutation of a present key, the
`setdefault(...).append(...)` idiom, `del d[k]`, and `d[k] = v` upsert are
modelled by `alookup`, `aupdate`, `bucketAppend`, `aerase` and `aset`
respectively, each acting on the first matching key.

Python values appearing in records are modelled by the inductive `Value`
(integers and strings, the value shapes the program's own example and tests
use).  Fallible operations (Python `raise`) return `Option`/`Except`, and the
`Bool` component of `Table.add_records` records whether the loop completed
without raising, with the partially mutated table returned either way, exactly
as the Python object is left partially mutated when the loop raises mid-batch.
-/

set_option autoImplicit false

namespace ElementalSpec

/-- Record field values: the integer and string values the program stores. -/
inductive Value where
  | int (n : Int)
  | str (s : String)
deriving DecidableEq, Repr

/-- A record is `dict(zip(columns, values))`: column/value pairs in column order. -/
abbrev Record := List (String × Value)

/-- A bucket of 0-based row positions, as stored by the secondary index. -/
abbrev Bucket := List Nat

/-- One column's index: Python `dict` value → list of positions. -/
abbrev ValMap := List (Value × Bucket)

/-- The secondary index: Python `dict` column → (`dict` value → positions). -/
abbrev Index := List (String × ValMap)

/-- Python `d.get(k)` / `d[k]` lookup on an association list. -/
def alookup {α : Type} {β : Type} [DecidableEq α] (k : α) : List (α × β) → Option β
  | [] => none
  | (k₀, b) :: rest => if k₀ = k then some b else alookup k rest

/-- Mutation of the value stored at a present key (`d[k].mutate()` in Python);
    a no-op when the key is absent (the source only mutates present keys). -/
def aupdate {α : Type} {β : Type} [DecidableEq α] (k : α) (f : β → β) : List (α × β) → List (α × β)
  | [] => []
  | (k₀, b) :: rest => if k₀ = k then (k₀, f b) :: rest else (k₀, b) :: aupdate k f rest

/-- Python `d.setdefault(k, []).append(p)`: append `p` to the bucket at `k`,
    inserting the key (at the end, as dict insertion order does) if absent. -/
def bucketAppend {α : Type} [DecidableEq α] (k : α) (p : Nat) :
    List (α × List Nat) → List (α × List Nat)
  | [] => [(k, [p])]
  | (k₀, l) :: rest =>
    if k₀ = k then (k₀, l ++ [p]) :: rest else (k₀, l) :: bucketAppend k p rest

/-- Python `del d[k]`: drop the entry at key `k`. -/
def aerase {α : Type} {β : Type} [DecidableEq α] (k : α) : List (α × β) → List (α × β)
  | [] => []
  | (k₀, b) :: rest => if k₀ = k then rest else (k₀, b) :: aerase k rest

/-- Python `d[k] = v` upsert: replace a present key, or append the new entry. -/
def aset {α : Type} {β : Type} [DecidableEq α] (k : α) (b : β) : List (α × β) → List (α × β)
  | [] => [(k, b)]
  | (k₀, b₀) :: rest => if k₀ = k then (k₀, b) :: rest else (k₀, b₀) :: aset k b rest

/-- Python `list.remove(x)`: drop the first occurrence of `x`, `none` when
    absent (where the Python call raises `ValueError`). -/
def removeFirst {α : Type} [DecidableEq α] (x : α) : List α → Option (List α)
  | [] => none
  | y :: ys => if y = x then some ys else (removeFirst x ys).map (y :: ·)

/-- Bucket lookup `indexed_data[c][v]` as an `Option` (absent key ≠ empty bucket). -/
def bkt (idx : Index) (c : String) (v : Value) : Option Bucket :=
  (alookup c idx).bind (fun m => alookup v m)

/-- The in-memory table: `Table.__init__` fields. -/
structure Table where
  name : String
  columns : List String
  records : List Record
  indexed_data : Index
deriving DecidableEq, Repr, Inhabited

/-- `Table(name, columns)`: empty records, one empty value-map per column.
    (Python's dict comprehension deduplicates column names; the claims concern
    tables whose column lists are duplicate-free, where both agree.) -/
def Table.fresh (name : String) (columns : List String) : Table :=
  { name := name, columns := columns, records := [],
    indexed_data := columns.map (fun c => (c, [])) }

/-- Record at 0-based position `p` (`self.records[p]`). -/
def recOf (t : Table) (p : Nat) : Record :=
  t.records.getD p []

/-- The index insertions of one appended/updated record: for each
    `(col, value)` pair, `indexed_data[col].setdefault(value, []).append(n)`. -/
def insertRec (idx : Index) (pairs : Record) (n : Nat) : Index :=
  pairs.foldl (fun acc cv => aupdate cv.1 (bucketAppend cv.2 n) acc) idx

/-- One iteration of the `add_records` loop body (after the arity check):
    append `dict(zip(columns, record))` and index it at the new last position. -/
def Table.addOne (t : Table) (record : List Value) : Table :=
  { t with records := t.records ++ [t.columns.zip record],
           indexed_data := insertRec t.indexed_data (t.columns.zip record) t.records.length }

/-- `Table.add_records`: per-record arity check inside the loop; on a mismatch
    the Python loop raises (`false` here) leaving the records already processed
    applied — the partially mutated table is returned alongside the flag. -/
def Table.add_records : Table → List (List Value) → Table × Bool
  | t, [] => (t, true)
  | t, record :: rest =>
    if record.length ≠ t.columns.length then (t, false)
    else (t.addOne record).add_records rest

/-- The index removals of `Table.update` for one `(col, value)` pair:
    `indexed_data[col][value].remove(p)`, keeping the (possibly now empty)
    bucket and its key. `none` where Python would raise. -/
def removeOnce (idx : Index) (c : String) (v : Value) (p : Nat) : Option Index := do
  let m ← alookup c idx
  let l ← alookup v m
  let l₁ ← removeFirst p l
  pure (aupdate c (fun _ => aupdate v (fun _ => l₁) m) idx)

/-- The `for col, value in old_record.items()` removal loop of `Table.update`. -/
def removeAll (p : Nat) : Record → Index → Option Index
  | [], idx => some idx
  | cv :: rest, idx =>
    match removeOnce idx cv.1 cv.2 p with
    | none => none
    | some idx₁ => removeAll p rest idx₁

/-- The index removals of `Table.delete` for one `(col, value)` pair:
    `indexed_data[col][value].remove(p)` followed by
    `if not indexed_data[col][value]: del indexed_data[col][value]`. -/
def delRemoveOnce (idx : Index) (c : String) (v : Value) (p : Nat) : Option Index := do
  let m ← alookup c idx
  let l ← alookup v m
  let l₁ ← removeFirst p l
  pure (aupdate c (fun _ => if l₁ = [] then aerase v m else aupdate v (fun _ => l₁) m) idx)

/-- The `for col, value in record_to_delete.items()` loop of `Table.delete`. -/
def delRemoveAll (p : Nat) : Record → Index → Option Index
  | [], idx => some idx
  | cv :: rest, idx =>
    match delRemoveOnce idx cv.1 cv.2 p with
    | none => none
    | some idx₁ => delRemoveAll p rest idx₁

/-- The renumbering comprehension of `Table.delete`:
    `[i if i < p else i - 1 for i in bucket]` over every bucket of every
    column.  Positions are naturals: the value `p` itself never survives to
    this step on any state the engine can reach (proved below), which is the
    only place Python's `p - 1` could go negative. -/
def renumber (p : Nat) (idx : Index) : Index :=
  idx.map (fun cm =>
    (cm.1, cm.2.map (fun vl => (vl.1, vl.2.map (fun i => if i < p then i else i - 1)))))

/-- `Table.update(row_number, data)`: bounds and arity checks, index removal of
    the old record's pairs, record replacement, index insertion of the new. -/
def Table.update (t : Table) (row_number : Nat) (data : List Value) : Option Table :=
  if ¬ (1 ≤ row_number ∧ row_number ≤ t.records.length) then none
  else if data.length ≠ t.columns.length then none
  else
    match removeAll (row_number - 1) (recOf t (row_number - 1)) t.indexed_data with
    | none => none
    | some idx₁ =>
      some { t with records := t.records.set (row_number - 1) (t.columns.zip data),
                    indexed_data := insertRec idx₁ (t.columns.zip data) (row_number - 1) }

/-- `Table.delete(row_number)`: bounds check, `records.pop(p)`, index removal
    of the deleted record's pairs with empty-bucket dropping, renumbering. -/
def Table.delete (t : Table) (row_number : Nat) : Option Table :=
  if ¬ (1 ≤ row_number ∧ row_number ≤ t.records.length) then none
  else
    match delRemoveAll (row_number - 1) (recOf t (row_number - 1)) t.indexed_data with
    | none => none
    | some idx₁ =>
      some { t with records := t.records.eraseIdx (row_number - 1),
                    indexed_data := renumber (row_number - 1) idx₁ }

/-- The flattened position list of `Table.search`'s comprehension:
    `for col in in_columns for i in indexed_data.get(col, {}).get(value, [])`. -/
def searchPositions (t : Table) (value : Value) (in_columns : List String) : List Nat :=
  in_columns.flatMap (fun col => (alookup value ((alookup col t.indexed_data).getD [])).getD [])

/-- `Table.search(value, in_columns)`: `self.records[i]` for each matched
    position; `none` where an out-of-range position would raise `IndexError`. -/
def Table.search (t : Table) (value : Value) (in_columns : List String) : Option (List Record) :=
  (searchPositions t value in_columns).mapM (fun i => t.records[i]?)

/-- `Table.to_dict`: the `{columns, records}` snapshot payload. -/
def Table.to_dict (t : Table) : List String × List Record :=
  (t.columns, t.records)

/-- The `for index, record in enumerate(records)` rebuild loop of `from_dict`. -/
def rebuildFrom : Nat → List Record → Index → Index
  | _, [], idx => idx
  | i, r :: rs, idx => rebuildFrom (i + 1) rs (insertRec idx r i)

/-- `Table.from_dict`: install the decoded columns and records, then rebuild
    the index from scratch by replaying the add-time insertions in file order. -/
def Table.from_dict (t : Table) (d : List String × List Record) : Table :=
  { t with columns := d.1, records := d.2,
           indexed_data := rebuildFrom 0 d.2 (d.1.map (fun c => (c, []))) }

/-- `decode(encode(table))` at the table level: `from_dict` of `to_dict`. -/
def roundtrip (t : Table) : Table :=
  t.from_dict t.to_dict

/-- Table-engine calls, the alphabet of C1's call sequences. -/
inductive TOp where
  | add (records : List (List Value))
  | upd (row_number : Nat) (data : List Value)
  | del (row_number : Nat)

/-- The table state after one call: a raising `add` leaves its partial
    mutation in place (the Python loop mutates, then raises); a raising
    `update`/`delete` leaves the table unchanged (their checks precede any
    mutation, and their in-loop `list.remove` never raises on a reachable
    state — proved below via `goodTable`). -/
def applyOp (t : Table) : TOp → Table
  | .add rs => (t.add_records rs).1
  | .upd rn data => (t.update rn data).getD t
  | .del rn => (t.delete rn).getD t

/-- A sequence of table-engine calls. -/
def runOps (t : Table) (ops : List TOp) : Table :=
  ops.foldl applyOp t

/-- The table reached from a freshly created table by a call sequence. -/
def reachT (name : String) (cols : List String) (ops : List TOp) : Table :=
  runOps (Table.fresh name cols) ops

/-- The exception kinds the engine raises: `PermissionError` for the auth
    gate, `ValueError` for schema/bounds/missing-table failures, `IndexError`
    for an out-of-range record access during search. -/
inductive DBError where
  | permissionError
  | valueError
  | indexError
deriving DecidableEq, Repr

deriving instance DecidableEq for Except

/-- Cache keys: `(table_name, value, tuple(in_columns))`. -/
abbrev CacheKey := String × Value × List String

/-- The engine state (`ElementalDB.__init__`), with the on-disk snapshot
    directory `database/` modelled as the `disk` map from table name to the
    written `{columns, records}` payload.  The credential file handling of
    `load_auth_data`/`save_auth_data` is the external credential collaborator
    and is not part of the engine state beyond `current_user`. -/
structure ElementalDB where
  tables : List (String × Table)
  auth_enabled : Bool
  current_user : Option String
  cache : List (CacheKey × List Record)
  disk : List (String × (List String × List Record))
deriving DecidableEq, Repr

/-- `ElementalDB(auth=...)`: empty tables, cache and disk, nobody signed in. -/
def ElementalDB.init (auth : Bool) : ElementalDB :=
  { tables := [], auth_enabled := auth, current_user := none, cache := [], disk := [] }

/-- `save_table`: if the table exists, write its `to_dict` payload to the
    per-table snapshot file, overwriting any prior file. -/
def ElementalDB.save_table (db : ElementalDB) (table_name : String) : ElementalDB :=
  match alookup table_name db.tables with
  | some t => { db with disk := aset table_name t.to_dict db.disk }
  | none => db

/-- `table_create(name, columns, overwrite)`: auth gate, existence check
    unless `overwrite`, then install a fresh table (no snapshot written). -/
def ElementalDB.table_create (db : ElementalDB) (name : String) (columns : List String)
    (overwrite : Bool) : Except DBError Table × ElementalDB :=
  if db.auth_enabled = true ∧ db.current_user = none then
    (.error .permissionError, db)
  else if (alookup name db.tables).isSome = true ∧ overwrite = false then
    (.error .valueError, db)
  else
    (.ok (Table.fresh name columns),
     { db with tables := aset name (Table.fresh name columns) db.tables })

/-- `ElementalDB.add`: auth gate, table lookup, `table.add_records(records)`
    (whose partial mutation on failure persists in the shared table object),
    and `save_table` only after a fully successful batch. -/
def ElementalDB.add (db : ElementalDB) (table_name : String) (records : List (List Value)) :
    Except DBError Unit × ElementalDB :=
  if db.auth_enabled = true ∧ db.current_user = none then
    (.error .permissionError, db)
  else
    match alookup table_name db.tables with
    | none => (.error .valueError, db)
    | some t =>
      let res := t.add_records records
      let db₁ := { db with tables := aupdate table_name (fun _ => res.1) db.tables }
      if res.2 then (.ok (), db₁.save_table table_name)
      else (.error .valueError, db₁)

/-- `ElementalDB.update`: auth gate, table lookup, then `table.update` is run
    by a `ProcessPoolExecutor` worker on a pickled copy of the table, so a
    successful mutation is applied to the copy and discarded — the caller's
    table is untouched and `save_table` persists the unmodified table.  A
    worker exception propagates, skipping the save. -/
def ElementalDB.update (db : ElementalDB) (table_name : String) (row_number : Nat)
    (data : List Value) : Except DBError Unit × ElementalDB :=
  if db.auth_enabled = true ∧ db.current_user = none then
    (.error .permissionError, db)
  else
    match alookup table_name db.tables with
    | none => (.error .valueError, db)
    | some t =>
      match t.update row_number data with
      | none => (.error .valueError, db)
      | some _ => (.ok (), db.save_table table_name)

/-- `ElementalDB.delete`: same off-process shape as `ElementalDB.update` —
    the worker's mutated copy is discarded, then the unchanged table is saved. -/
def ElementalDB.delete (db : ElementalDB) (table_name : String) (row_number : Nat) :
    Except DBError Unit × ElementalDB :=
  if db.auth_enabled = true ∧ db.current_user = none then
    (.error .permissionError, db)
  else
    match alookup table_name db.tables with
    | none => (.error .valueError, db)
    | some t =>
      match t.delete row_number with
      | none => (.error .valueError, db)
      | some _ => (.ok (), db.save_table table_name)

/-- `ElementalDB.search`: cache lookup first (before even the table-existence
    check); on a miss, delegate to `Table.search` and store the result. -/
def ElementalDB.search (db : ElementalDB) (table_name : String) (value : Value)
    (in_columns : List String) : Except DBError (List Record) × ElementalDB :=
  match alookup (table_name, value, in_columns) db.cache with
  | some results => (.ok results, db)
  | none =>
    match alookup table_name db.tables with
    | none => (.error .valueError, db)
    | some t =>
      match t.search value in_columns with
      | none => (.error .indexError, db)
      | some results =>
        (.ok results,
         { db with cache := db.cache ++ [((table_name, value, in_columns), results)] })

/-- Engine calls, the alphabet of C7's call sequences.  `signin` models only
    the engine-visible effect of a successful sign-in (the credential check
    itself is the external collaborator); `logout` clears the principal. -/
inductive DBOp where
  | tableCreate (name : String) (columns : List String) (overwrite : Bool)
  | add (table_name : String) (records : List (List Value))
  | update (table_name : String) (row_number : Nat) (data : List Value)
  | delete (table_name : String) (row_number : Nat)
  | search (table_name : String) (value : Value) (in_columns : List String)
  | signin (email : String)
  | logout

/-- The engine state after one call (results discarded, state kept). -/
def applyDB (db : ElementalDB) : DBOp → ElementalDB
  | .tableCreate n cols ow => (db.table_create n cols ow).2
  | .add tn rs => (db.add tn rs).2
  | .update tn rn data => (db.update tn rn data).2
  | .delete tn rn => (db.delete tn rn).2
  | .search tn v cols => (db.search tn v cols).2
  | .signin email => { db with current_user := some email }
  | .logout => { db with current_user := none }

/-- A sequence of engine calls. -/
def runDB (db : ElementalDB) (ops : List DBOp) : ElementalDB :=
  ops.foldl applyDB db

/-- Position `q` is filed in the index under column `c` and value `v`. -/
def memB (t : Table) (c : String) (v : Value) (q : Nat) : Prop :=
  ∃ l, bkt t.indexed_data c v = some l ∧ q ∈ l

/-- Well-formedness of a table state, maintained by every table-engine call:
    duplicate-free columns, index keys exactly the columns, every record keyed
    by the columns in order, duplicate-free value keys, duplicate-free buckets,
    and the two directions of index consistency — every filed position holds
    the filing value in the filing column (soundness, which also makes any two
    buckets of one column disjoint), and every record value is filed
    (completeness). -/
structure goodTable (t : Table) : Prop where
  colsNodup : t.columns.Nodup
  idxKeys : t.indexed_data.map Prod.fst = t.columns
  recKeys : ∀ r ∈ t.records, r.map Prod.fst = t.columns
  vkeysNodup : ∀ c m, alookup c t.indexed_data = some m → (m.map Prod.fst).Nodup
  bNodup : ∀ c v l, bkt t.indexed_data c v = some l → l.Nodup
  bSound : ∀ c v l q, bkt t.indexed_data c v = some l → q ∈ l →
      q < t.records.length ∧ alookup c (recOf t q) = some v
  bComplete : ∀ q c v, q < t.records.length → alookup c (recOf t q) = some v →
      ∃ l, bkt t.indexed_data c v = some l ∧ q ∈ l

/-- The result sequence §4.1 of the spec prescribes for `search`: an outer
    loop over the requested columns in list order, an inner loop over that
    column's matched positions (empty when the column or value is unknown),
    collecting the record stored at each matched position.  This definition
    follows the spec's words; C6 relates `Table.search` to it. -/
def searchSpec (t : Table) (value : Value) (in_columns : List String) : List Record :=
  in_columns.flatMap (fun col =>
    ((alookup value ((alookup col t.indexed_data).getD [])).getD []).map
      (fun i => t.records.getD i []))

/-- The stored form of the record `(1, "Alice", 30)`. -/
def aliceRec30 : Record :=
  [("id", Value.int 1), ("name", Value.str "Alice"), ("age", Value.int 30)]

/-- A fresh engine (auth disabled) with the `Users` table created. -/
def dbU : ElementalDB :=
  ((ElementalDB.init false).table_create "Users" ["id", "name", "age"] false).2

/-- Scenario A at engine level: `Users` with Alice and Bob added. -/
def dbA : ElementalDB :=
  (dbU.add "Users" [[Value.int 1, Value.str "Alice", Value.int 30],
                    [Value.int 2, Value.str "Bob", Value.int 25]]).2

/-- Scenario B at engine level: Scenario A then `update(1, (1, "Alice", 31))`. -/
def dbB : ElementalDB :=
  (dbA.update "Users" 1 [Value.int 1, Value.str "Alice", Value.int 31]).2

/-- Scenario A followed by one completed search, which caches its result. -/
def dbCache : ElementalDB :=
  (dbA.search "Users" (Value.str "Alice") ["name"]).2

/-- An add batch whose second record has the wrong arity. -/
def badBatch : List (List Value) :=
  [[Value.int 1, Value.str "Alice", Value.int 30], [Value.int 2, Value.str "Bob"]]

/-- Scenario A's batch insert on the `Users` table (spec §8). -/
def addAB : TOp :=
  TOp.add [[Value.int 1, Value.str "Alice", Value.int 30],
           [Value.int 2, Value.str "Bob", Value.int 25]]

/-- Scenario B's record update (spec §8). -/
def updB : TOp :=
  TOp.upd 1 [Value.int 1, Value.str "Alice", Value.int 31]

/-- Scenario A call sequence. -/
def opsA : List TOp := [addAB]

/-- Scenario B call sequence. -/
def opsB : List TOp := [addAB, updB]

/-- Scenario B followed by Scenario C's delete: one call of each kind. -/
def opsBC : List TOp := [addAB, updB, TOp.del 1]

/-! ### Association-list primitives: lookup/update/append/erase lemmas -/

section AList

variable {α β : Type} [DecidableEq α]

theorem alookup_eq_none {k : α} {l : List (α × β)} :
    alookup k l = none ↔ k ∉ l.map Prod.fst := by
  induction l with
  | nil => simp [alookup]
  | cons kb rest ih =>
    obtain ⟨k₀, b⟩ := kb
    by_cases h : k₀ = k <;> simp [alookup, h, ih, Ne.symm]

theorem alookup_mem {k : α} {b : β} {l : List (α × β)} (h : alookup k l = some b) :
    (k, b) ∈ l := by
  induction l with
  | nil => simp [alookup] at h
  | cons kb rest ih =>
    obtain ⟨k₀, b₀⟩ := kb
    by_cases hk : k₀ = k
    · simp only [alookup] at h
      rw [if_pos hk] at h
      injection h with h
      subst h
      rw [← hk]
      exact List.mem_cons_self _ _
    · simp only [alookup] at h
      rw [if_neg hk] at h
      exact List.mem_cons_of_mem _ (ih h)

theorem alookup_isSome {k : α} {l : List (α × β)} :
    (alookup k l).isSome = true ↔ k ∈ l.map Prod.fst := by
  cases h : alookup k l with
  | none => simp [alookup_eq_none.mp h]
  | some b =>
    simp only [Option.isSome_some, true_iff]
    exact List.mem_map_of_mem Prod.fst (alookup_mem h)

theorem mem_alookup {k : α} {b : β} {l : List (α × β)} (hn : (l.map Prod.fst).Nodup)
    (h : (k, b) ∈ l) : alookup k l = some b := by
  induction l with
  | nil => simp at h
  | cons kb rest ih =>
    obtain ⟨k₀, b₀⟩ := kb
    rw [List.map_cons, List.nodup_cons] at hn
    rcases List.mem_cons.mp h with h | h
    · cases h
      simp [alookup]
    · have hk : k₀ ≠ k := by
        rintro rfl
        have hfst := List.mem_map_of_mem Prod.fst h
        exact hn.1 hfst
      simp only [alookup]
      rw [if_neg hk]
      exact ih hn.2 h

theorem alookup_aupdate_self {k : α} {f : β → β} {l : List (α × β)} :
    alookup k (aupdate k f l) = (alookup k l).map f := by
  induction l with
  | nil => simp [alookup, aupdate]
  | cons kb rest ih =>
    obtain ⟨k₀, b₀⟩ := kb
    by_cases h : k₀ = k <;> simp [alookup, aupdate, h, ih]

theorem alookup_aupdate_ne {k k₁ : α} {f : β → β} {l : List (α × β)} (h : k₁ ≠ k) :
    alookup k (aupdate k₁ f l) = alookup k l := by
  induction l with
  | nil => simp [alookup, aupdate]
  | cons kb rest ih =>
    obtain ⟨k₀, b₀⟩ := kb
    by_cases h₀ : k₀ = k₁
    · subst h₀
      simp [alookup, aupdate, h, ih]
    · simp [alookup, aupdate, h₀, ih]

theorem aupdate_map_fst {k : α} {f : β → β} {l : List (α × β)} :
    (aupdate k f l).map Prod.fst = l.map Prod.fst := by
  induction l with
  | nil => simp [aupdate]
  | cons kb rest ih =>
    obtain ⟨k₀, b₀⟩ := kb
    by_cases h : k₀ = k <;> simp [aupdate, h, ih]

theorem alookup_aset_self {k : α} {b : β} {l : List (α × β)} :
    alookup k (aset k b l) = some b := by
  induction l with
  | nil => simp [alookup, aset]
  | cons kb rest ih =>
    obtain ⟨k₀, b₀⟩ := kb
    by_cases h : k₀ = k <;> simp [alookup, aset, h, ih]

theorem alookup_aset_ne {k k₁ : α} {b : β} {l : List (α × β)} (h : k₁ ≠ k) :
    alookup k (aset k₁ b l) = alookup k l := by
  induction l with
  | nil => simp [alookup, aset, h]
  | cons kb rest ih =>
    obtain ⟨k₀, b₀⟩ := kb
    by_cases h₀ : k₀ = k₁
    · subst h₀
      simp [alookup, aset, h, ih]
    · simp [alookup, aset, h₀, ih]

theorem alookup_append_left {k : α} {b : β} {l₁ l₂ : List (α × β)}
    (h : alookup k l₁ = some b) : alookup k (l₁ ++ l₂) = some b := by
  induction l₁ with
  | nil => simp [alookup] at h
  | cons kb rest ih =>
    obtain ⟨k₀, b₀⟩ := kb
    by_cases hk : k₀ = k <;> simp_all [alookup]

end AList

section BucketOps

variable {α : Type} [DecidableEq α]

theorem alookup_bucketAppend_self {k : α} {p : Nat} {m : List (α × List Nat)} :
    alookup k (bucketAppend k p m) = some ((alookup k m).getD [] ++ [p]) := by
  induction m with
  | nil => simp [alookup, bucketAppend]
  | cons kb rest ih =>
    obtain ⟨k₀, l₀⟩ := kb
    by_cases h : k₀ = k <;> simp [alookup, bucketAppend, h, ih]

theorem alookup_bucketAppend_ne {k k₁ : α} {p : Nat} {m : List (α × List Nat)} (h : k₁ ≠ k) :
    alookup k (bucketAppend k₁ p m) = alookup k m := by
  induction m with
  | nil => simp [alookup, bucketAppend, h]
  | cons kb rest ih =>
    obtain ⟨k₀, l₀⟩ := kb
    by_cases h₀ : k₀ = k₁
    · subst h₀
      simp [alookup, bucketAppend, h, ih]
    · simp [alookup, bucketAppend, h₀, ih]

theorem bucketAppend_map_fst_mem {k : α} {p : Nat} {m : List (α × List Nat)}
    (h : k ∈ m.map Prod.fst) : (bucketAppend k p m).map Prod.fst = m.map Prod.fst := by
  induction m with
  | nil => simp at h
  | cons kb rest ih =>
    obtain ⟨k₀, l₀⟩ := kb
    by_cases h₀ : k₀ = k
    · simp [bucketAppend, h₀]
    · rw [List.map_cons] at h
      rcases List.mem_cons.mp h with h | h
      · exact absurd h.symm h₀
      · simp [bucketAppend, h₀, ih h]

theorem bucketAppend_map_fst_not_mem {k : α} {p : Nat} {m : List (α × List Nat)}
    (h : k ∉ m.map Prod.fst) :
    (bucketAppend k p m).map Prod.fst = m.map Prod.fst ++ [k] := by
  induction m with
  | nil => simp [bucketAppend]
  | cons kb rest ih =>
    obtain ⟨k₀, l₀⟩ := kb
    rw [List.map_cons] at h
    have h₁ : k₀ ≠ k := fun e => h (e ▸ List.mem_cons_self _ _)
    have h₂ : k ∉ rest.map Prod.fst := fun e => h (List.mem_cons_of_mem _ e)
    simp [bucketAppend, h₁, ih h₂]

theorem alookup_aerase_self {k : α} {β : Type} {l : List (α × β)}
    (hn : (l.map Prod.fst).Nodup) : alookup k (aerase k l) = none := by
  induction l with
  | nil => simp [alookup, aerase]
  | cons kb rest ih =>
    obtain ⟨k₀, b₀⟩ := kb
    rw [List.map_cons, List.nodup_cons] at hn
    by_cases h : k₀ = k
    · subst h
      simp only [aerase, if_pos rfl]
      exact alookup_eq_none.mpr hn.1
    · simp [alookup, aerase, h, ih hn.2]

theorem alookup_aerase_ne {k k₁ : α} {β : Type} {l : List (α × β)} (h : k₁ ≠ k) :
    alookup k (aerase k₁ l) = alookup k l := by
  induction l with
  | nil => simp [alookup, aerase]
  | cons kb rest ih =>
    obtain ⟨k₀, b₀⟩ := kb
    by_cases h₀ : k₀ = k₁
    · subst h₀
      simp [alookup, aerase, h, ih]
    · simp [alookup, aerase, h₀, ih]

theorem aerase_map_fst_sublist {k : α} {β : Type} {l : List (α × β)} :
    ((aerase k l).map Prod.fst).Sublist (l.map Prod.fst) := by
  induction l with
  | nil => simp [aerase]
  | cons kb rest ih =>
    obtain ⟨k₀, b₀⟩ := kb
    by_cases h : k₀ = k
    · simp only [aerase, if_pos h, List.map_cons]
      exact List.sublist_cons_self _ _
    · simp only [aerase, if_neg h, List.map_cons]
      exact ih.cons₂ k₀

end BucketOps

section RemoveFirst

variable {α : Type} [DecidableEq α]

theorem removeFirst_isSome {x : α} {l : List α} (h : x ∈ l) :
    ∃ l₁, removeFirst x l = some l₁ := by
  induction l with
  | nil => simp at h
  | cons y ys ih =>
    by_cases hy : y = x
    · exact ⟨ys, by simp [removeFirst, hy]⟩
    · rcases List.mem_cons.mp h with h | h
      · exact absurd h.symm hy
      · obtain ⟨l₁, hl₁⟩ := ih h
        exact ⟨y :: l₁, by simp [removeFirst, hy, hl₁]⟩

theorem removeFirst_subset {x y : α} {l l₁ : List α} (h : removeFirst x l = some l₁)
    (hy : y ∈ l₁) : y ∈ l := by
  induction l generalizing l₁ with
  | nil => simp [removeFirst] at h
  | cons z zs ih =>
    by_cases hz : z = x
    · simp [removeFirst, hz] at h
      subst h
      exact List.mem_cons_of_mem _ hy
    · simp [removeFirst, hz] at h
      obtain ⟨l₂, hl₂, rfl⟩ := h
      rcases List.mem_cons.mp hy with rfl | hy
      · exact List.mem_cons_self _ _
      · exact List.mem_cons_of_mem _ (ih hl₂ hy)

theorem removeFirst_nodup {x : α} {l l₁ : List α} (hn : l.Nodup)
    (h : removeFirst x l = some l₁) : l₁.Nodup ∧ ∀ y, y ∈ l₁ ↔ y ∈ l ∧ y ≠ x := by
  induction l generalizing l₁ with
  | nil => simp [removeFirst] at h
  | cons z zs ih =>
    simp at hn
    by_cases hz : z = x
    · subst hz
      simp [removeFirst] at h
      subst h
      refine ⟨hn.2, fun y => ?_⟩
      constructor
      · intro hy
        refine ⟨List.mem_cons_of_mem _ hy, ?_⟩
        rintro rfl
        exact hn.1 hy
      · rintro ⟨hy, hne⟩
        rcases List.mem_cons.mp hy with rfl | hy
        · exact absurd rfl hne
        · exact hy
    · simp [removeFirst, hz] at h
      obtain ⟨l₂, hl₂, rfl⟩ := h
      obtain ⟨hnd, hiff⟩ := ih hn.2 hl₂
      constructor
      · refine List.nodup_cons.mpr ⟨fun hzl => ?_, hnd⟩
        exact hn.1 (removeFirst_subset hl₂ hzl)
      · intro y
        constructor
        · intro hy
          rcases List.mem_cons.mp hy with rfl | hy
          · exact ⟨List.mem_cons_self _ _, hz⟩
          · obtain ⟨h₁, h₂⟩ := (hiff y).mp hy
            exact ⟨List.mem_cons_of_mem _ h₁, h₂⟩
        · rintro ⟨hy, hne⟩
          rcases List.mem_cons.mp hy with rfl | hy
          · exact List.mem_cons_self _ _
          · exact List.mem_cons_of_mem _ ((hiff y).mpr ⟨hy, hne⟩)

end RemoveFirst

/-! ### Characterisation of the index-insertion fold `insertRec` -/

theorem insertRec_cons {idx : Index} {c₀ : String} {v₀ : Value} {rest : Record} {n : Nat} :
    insertRec idx ((c₀, v₀) :: rest) n
      = insertRec (aupdate c₀ (bucketAppend v₀ n) idx) rest n := by
  simp [insertRec]

theorem insertRec_map_fst {idx : Index} {pairs : Record} {n : Nat} :
    (insertRec idx pairs n).map Prod.fst = idx.map Prod.fst := by
  induction pairs generalizing idx with
  | nil => rfl
  | cons cv rest ih =>
    obtain ⟨c₀, v₀⟩ := cv
    rw [insertRec_cons, ih, aupdate_map_fst]

theorem insertRec_alookup_none {idx : Index} {pairs : Record} {n : Nat} {c : String}
    (hc : alookup c pairs = none) :
    alookup c (insertRec idx pairs n) = alookup c idx := by
  induction pairs generalizing idx with
  | nil => rfl
  | cons cv rest ih =>
    obtain ⟨c₀, v₀⟩ := cv
    simp only [alookup] at hc
    by_cases h₀ : c₀ = c
    · rw [if_pos h₀] at hc
      cases hc
    · rw [if_neg h₀] at hc
      rw [insertRec_cons, ih hc, alookup_aupdate_ne h₀]

theorem insertRec_alookup_some {idx : Index} {pairs : Record} {n : Nat} {c : String} {v : Value}
    (hnd : (pairs.map Prod.fst).Nodup) (hc : alookup c pairs = some v) :
    alookup c (insertRec idx pairs n) = (alookup c idx).map (bucketAppend v n) := by
  induction pairs generalizing idx with
  | nil => simp [alookup] at hc
  | cons cv rest ih =>
    obtain ⟨c₀, v₀⟩ := cv
    rw [List.map_cons, List.nodup_cons] at hnd
    simp only [alookup] at hc
    by_cases h₀ : c₀ = c
    · rw [if_pos h₀] at hc
      injection hc with hc
      subst hc
      subst h₀
      have hrest : alookup c₀ rest = none := alookup_eq_none.mpr hnd.1
      rw [insertRec_cons, insertRec_alookup_none hrest, alookup_aupdate_self]
    · rw [if_neg h₀] at hc
      rw [insertRec_cons, ih hnd.2 hc, alookup_aupdate_ne h₀]

/-- Bucket-level view of `insertRec`, untouched column: a column absent from
    the inserted record keeps all its buckets. -/
theorem insertRec_bkt_none {idx : Index} {pairs : Record} {n : Nat} {c : String} {v : Value}
    (hc : alookup c pairs = none) :
    bkt (insertRec idx pairs n) c v = bkt idx c v := by
  simp only [bkt, insertRec_alookup_none hc]

/-- Bucket-level view of `insertRec`, touched column: position `n` is appended
    to the bucket of the inserted value (the key being created when absent),
    every other bucket of the column being untouched. -/
theorem insertRec_bkt_some {idx : Index} {pairs : Record} {n : Nat} {c : String} {v v₀ : Value}
    (hnd : (pairs.map Prod.fst).Nodup) (hc : alookup c pairs = some v₀) :
    bkt (insertRec idx pairs n) c v
      = if (alookup c idx).isSome = true then
          (if v₀ = v then some (((bkt idx c v).getD []) ++ [n]) else bkt idx c v)
        else none := by
  rw [bkt, insertRec_alookup_some hnd hc]
  cases hm : alookup c idx with
  | none => simp
  | some m =>
    by_cases hv : v₀ = v
    · subst hv
      simp [bkt, hm, alookup_bucketAppend_self]
    · simp [bkt, hm, alookup_bucketAppend_ne hv, hv]

/-! ### Characterisation of the update-path index removal `removeAll` -/

theorem removeAll_spec {p : Nat} {pairs : Record} {idx : Index}
    (hnd : (pairs.map Prod.fst).Nodup)
    (hmem : ∀ cv ∈ pairs, ∃ l, bkt idx cv.1 cv.2 = some l ∧ p ∈ l) :
    ∃ idx₁, removeAll p pairs idx = some idx₁ ∧
      idx₁.map Prod.fst = idx.map Prod.fst ∧
      (∀ c, (alookup c idx₁).map (fun m => m.map Prod.fst)
          = (alookup c idx).map (fun m => m.map Prod.fst)) ∧
      (∀ c v, alookup c pairs ≠ some v → bkt idx₁ c v = bkt idx c v) ∧
      (∀ c v l, alookup c pairs = some v → bkt idx c v = some l →
          ∃ l₁, removeFirst p l = some l₁ ∧ bkt idx₁ c v = some l₁) := by
  induction pairs generalizing idx with
  | nil =>
    refine ⟨idx, rfl, rfl, fun _ => rfl, fun _ _ _ => rfl, fun c v l hc => ?_⟩
    simp [alookup] at hc
  | cons cv rest ih =>
    obtain ⟨c₀, v₀⟩ := cv
    rw [List.map_cons, List.nodup_cons] at hnd
    obtain ⟨l, hbkt, hp⟩ := hmem (c₀, v₀) (List.mem_cons_self _ _)
    rw [bkt] at hbkt
    cases hm : alookup c₀ idx with
    | none => rw [hm] at hbkt; cases hbkt
    | some m =>
      rw [hm, Option.some_bind] at hbkt
      obtain ⟨l₁, hrm⟩ := removeFirst_isSome hp
      have hstep : removeOnce idx c₀ v₀ p
          = some (aupdate c₀ (fun _ => aupdate v₀ (fun _ => l₁) m) idx) := by
        simp [removeOnce, hm, hbkt, hrm]
      set idx' := aupdate c₀ (fun _ => aupdate v₀ (fun _ => l₁) m) idx with hidx'
      have hlook : alookup c₀ idx' = some (aupdate v₀ (fun _ => l₁) m) := by
        rw [hidx', alookup_aupdate_self, hm, Option.map_some']
      have hlook_ne : ∀ c, c ≠ c₀ → alookup c idx' = alookup c idx := by
        intro c hc
        rw [hidx', alookup_aupdate_ne (Ne.symm hc)]
      have hbkt_ne : ∀ c v, (c ≠ c₀ ∨ v ≠ v₀) → bkt idx' c v = bkt idx c v := by
        intro c v hcv
        by_cases hc : c = c₀
        · subst hc
          have hv : v ≠ v₀ := hcv.resolve_left (fun h => h rfl)
          rw [bkt, bkt, hlook, hm, Option.some_bind, Option.some_bind,
            alookup_aupdate_ne (Ne.symm hv)]
        · rw [bkt, bkt, hlook_ne c hc]
      have hbkt_self : bkt idx' c₀ v₀ = some l₁ := by
        rw [bkt, hlook, Option.some_bind, alookup_aupdate_self, hbkt, Option.map_some']
      have hmem' : ∀ cv ∈ rest, ∃ l₂, bkt idx' cv.1 cv.2 = some l₂ ∧ p ∈ l₂ := by
        intro cv hcv
        have hne : cv.1 ≠ c₀ := by
          rintro rfl
          have hfst := List.mem_map_of_mem Prod.fst hcv
          exact hnd.1 hfst
        rw [hbkt_ne cv.1 cv.2 (Or.inl hne)]
        exact hmem cv (List.mem_cons_of_mem _ hcv)
      obtain ⟨idx₁, hrun, hfst, hvk, hsame, hrem⟩ := ih hnd.2 hmem'
      refine ⟨idx₁, ?_, ?_, ?_, ?_, ?_⟩
      · rw [removeAll, hstep]
        exact hrun
      · rw [hfst, hidx', aupdate_map_fst]
      · intro c
        rw [hvk c]
        by_cases hc : c = c₀
        · subst hc
          rw [hlook, hm, Option.map_some', Option.map_some', aupdate_map_fst]
        · rw [hlook_ne c hc]
      · intro c v hcv
        simp only [alookup] at hcv
        by_cases hc : c₀ = c
        · subst hc
          rw [if_pos rfl] at hcv
          have hv : v ≠ v₀ := fun h => hcv (by rw [h])
          have hc₀rest : alookup c₀ rest = none := alookup_eq_none.mpr hnd.1
          rw [hsame c₀ v (by rw [hc₀rest]; exact fun h => Option.noConfusion h),
            hbkt_ne c₀ v (Or.inr hv)]
        · rw [if_neg hc] at hcv
          rw [hsame c v hcv, hbkt_ne c v (Or.inl (fun h => hc (h ▸ rfl)))]
      · intro c v l₂ hcv hbkt₂
        simp only [alookup] at hcv
        by_cases hc : c₀ = c
        · subst hc
          rw [if_pos rfl] at hcv
          have hv : v = v₀ := (Option.some.inj hcv).symm
          subst hv
          have hbkt' : alookup v m = some l := hbkt
          have hl : l₂ = l := by
            have hx : bkt idx c₀ v = some l := by
              rw [bkt, hm, Option.some_bind]
              exact hbkt'
            rw [hbkt₂] at hx
            exact Option.some.inj hx
          subst hl
          have hc₀rest : alookup c₀ rest = none := alookup_eq_none.mpr hnd.1
          refine ⟨l₁, hrm, ?_⟩
          rw [hsame c₀ v (by rw [hc₀rest]; exact fun h => Option.noConfusion h)]
          exact hbkt_self
        · rw [if_neg hc] at hcv
          have : bkt idx' c v = some l₂ := by
            rw [hbkt_ne c v (Or.inl (fun h => hc (h ▸ rfl)))]
            exact hbkt₂
          exact hrem c v l₂ hcv this

/-! ### Characterisation of the delete-path index removal `delRemoveAll` -/

theorem delRemoveAll_spec {p : Nat} {pairs : Record} {idx : Index}
    (hnd : (pairs.map Prod.fst).Nodup)
    (hvk : ∀ c m, alookup c idx = some m → (m.map Prod.fst).Nodup)
    (hmem : ∀ cv ∈ pairs, ∃ l, bkt idx cv.1 cv.2 = some l ∧ p ∈ l) :
    ∃ idx₁, delRemoveAll p pairs idx = some idx₁ ∧
      idx₁.map Prod.fst = idx.map Prod.fst ∧
      (∀ c m₁, alookup c idx₁ = some m₁ →
        ∃ m, alookup c idx = some m ∧ (m₁.map Prod.fst).Sublist (m.map Prod.fst)) ∧
      (∀ c v, alookup c pairs ≠ some v → bkt idx₁ c v = bkt idx c v) ∧
      (∀ c v l, alookup c pairs = some v → bkt idx c v = some l →
        ∃ l₁, removeFirst p l = some l₁ ∧
          bkt idx₁ c v = (if l₁ = [] then none else some l₁)) := by
  induction pairs generalizing idx with
  | nil =>
    refine ⟨idx, rfl, rfl, fun c m₁ h => ⟨m₁, h, List.Sublist.refl _⟩,
      fun _ _ _ => rfl, fun c v l hc => ?_⟩
    simp [alookup] at hc
  | cons cv rest ih =>
    obtain ⟨c₀, v₀⟩ := cv
    rw [List.map_cons, List.nodup_cons] at hnd
    obtain ⟨l, hbkt, hp⟩ := hmem (c₀, v₀) (List.mem_cons_self _ _)
    rw [bkt] at hbkt
    cases hm : alookup c₀ idx with
    | none => rw [hm] at hbkt; cases hbkt
    | some m =>
      rw [hm, Option.some_bind] at hbkt
      have hbkt' : alookup v₀ m = some l := hbkt
      obtain ⟨l₁, hrm⟩ := removeFirst_isSome hp
      have hstep : delRemoveOnce idx c₀ v₀ p
          = some (aupdate c₀
              (fun _ => if l₁ = [] then aerase v₀ m else aupdate v₀ (fun _ => l₁) m) idx) := by
        simp [delRemoveOnce, hm, hbkt', hrm]
      set m' := if l₁ = [] then aerase v₀ m else aupdate v₀ (fun _ => l₁) m with hm'
      set idx' := aupdate c₀ (fun _ => m') idx with hidx'
      have hmkeys : (m'.map Prod.fst).Sublist (m.map Prod.fst) := by
        rw [hm']
        by_cases hl₁ : l₁ = []
        · rw [if_pos hl₁]
          exact aerase_map_fst_sublist
        · rw [if_neg hl₁, aupdate_map_fst]
      have hlook : alookup c₀ idx' = some m' := by
        rw [hidx', alookup_aupdate_self, hm, Option.map_some']
      have hlook_ne : ∀ c, c ≠ c₀ → alookup c idx' = alookup c idx := by
        intro c hc
        rw [hidx', alookup_aupdate_ne (Ne.symm hc)]
      have hmv_ne : ∀ v, v ≠ v₀ → alookup v m' = alookup v m := by
        intro v hv
        rw [hm']
        by_cases hl₁ : l₁ = []
        · rw [if_pos hl₁, alookup_aerase_ne (Ne.symm hv)]
        · rw [if_neg hl₁, alookup_aupdate_ne (Ne.symm hv)]
      have hmv_self : alookup v₀ m' = (if l₁ = [] then none else some l₁) := by
        rw [hm']
        by_cases hl₁ : l₁ = []
        · rw [if_pos hl₁, if_pos hl₁]
          exact alookup_aerase_self (hvk c₀ m hm)
        · rw [if_neg hl₁, if_neg hl₁, alookup_aupdate_self, hbkt', Option.map_some']
      have hbkt_ne : ∀ c v, (c ≠ c₀ ∨ v ≠ v₀) → bkt idx' c v = bkt idx c v := by
        intro c v hcv
        by_cases hc : c = c₀
        · subst hc
          have hv : v ≠ v₀ := hcv.resolve_left (fun h => h rfl)
          rw [bkt, bkt, hlook, hm, Option.some_bind, Option.some_bind, hmv_ne v hv]
        · rw [bkt, bkt, hlook_ne c hc]
      have hvk' : ∀ c m₂, alookup c idx' = some m₂ → (m₂.map Prod.fst).Nodup := by
        intro c m₂ hc
        by_cases hcc : c = c₀
        · subst hcc
          rw [hlook] at hc
          have hm₂ : m₂ = m' := (Option.some.inj hc).symm
          subst hm₂
          exact (hvk c m hm).sublist hmkeys
        · rw [hlook_ne c hcc] at hc
          exact hvk c m₂ hc
      have hmem' : ∀ cv ∈ rest, ∃ l₂, bkt idx' cv.1 cv.2 = some l₂ ∧ p ∈ l₂ := by
        intro cv hcv
        have hne : cv.1 ≠ c₀ := by
          rintro rfl
          have hfst := List.mem_map_of_mem Prod.fst hcv
          exact hnd.1 hfst
        rw [hbkt_ne cv.1 cv.2 (Or.inl hne)]
        exact hmem cv (List.mem_cons_of_mem _ hcv)
      obtain ⟨idx₁, hrun, hfst, hvk₁, hsame, hrem⟩ := ih hnd.2 hvk' hmem'
      refine ⟨idx₁, ?_, ?_, ?_, ?_, ?_⟩
      · rw [delRemoveAll, hstep]
        exact hrun
      · rw [hfst, hidx', aupdate_map_fst]
      · intro c m₁ hc
        obtain ⟨m₂, hm₂, hsub₂⟩ := hvk₁ c m₁ hc
        by_cases hcc : c = c₀
        · subst hcc
          rw [hlook] at hm₂
          have : m₂ = m' := (Option.some.inj hm₂).symm
          subst this
          exact ⟨m, hm, hsub₂.trans hmkeys⟩
        · rw [hlook_ne c hcc] at hm₂
          exact ⟨m₂, hm₂, hsub₂⟩
      · intro c v hcv
        simp only [alookup] at hcv
        by_cases hc : c₀ = c
        · subst hc
          rw [if_pos rfl] at hcv
          have hv : v ≠ v₀ := fun h => hcv (by rw [h])
          have hc₀rest : alookup c₀ rest = none := alookup_eq_none.mpr hnd.1
          rw [hsame c₀ v (by rw [hc₀rest]; exact fun h => Option.noConfusion h),
            hbkt_ne c₀ v (Or.inr hv)]
        · rw [if_neg hc] at hcv
          rw [hsame c v hcv, hbkt_ne c v (Or.inl (fun h => hc (h ▸ rfl)))]
      · intro c v l₂ hcv hbkt₂
        simp only [alookup] at hcv
        by_cases hc : c₀ = c
        · subst hc
          rw [if_pos rfl] at hcv
          have hv : v = v₀ := (Option.some.inj hcv).symm
          subst hv
          have hl : l₂ = l := by
            have hx : bkt idx c₀ v = some l := by
              rw [bkt, hm, Option.some_bind]
              exact hbkt'
            rw [hbkt₂] at hx
            exact Option.some.inj hx
          subst hl
          have hc₀rest : alookup c₀ rest = none := alookup_eq_none.mpr hnd.1
          refine ⟨l₁, hrm, ?_⟩
          rw [hsame c₀ v (by rw [hc₀rest]; exact fun h => Option.noConfusion h)]
          rw [bkt, hlook, Option.some_bind]
          exact hmv_self
        · rw [if_neg hc] at hcv
          have : bkt idx' c v = some l₂ := by
            rw [hbkt_ne c v (Or.inl (fun h => hc (h ▸ rfl)))]
            exact hbkt₂
          exact hrem c v l₂ hcv this

/-! ### The renumbering map of `Table.delete` -/

theorem alookup_map_snd {α β γ : Type} [DecidableEq α] {k : α} {g : β → γ}
    {l : List (α × β)} :
    alookup k (l.map (fun ab => (ab.1, g ab.2))) = (alookup k l).map g := by
  induction l with
  | nil => simp [alookup]
  | cons kb rest ih =>
    obtain ⟨k₀, b₀⟩ := kb
    by_cases h : k₀ = k <;> simp [alookup, h, ih]

theorem renumber_map_fst {p : Nat} {idx : Index} :
    (renumber p idx).map Prod.fst = idx.map Prod.fst := by
  simp [renumber, List.map_map]

theorem bkt_renumber {p : Nat} {idx : Index} {c : String} {v : Value} :
    bkt (renumber p idx) c v
      = (bkt idx c v).map (List.map (fun i => if i < p then i else i - 1)) := by
  rw [bkt, bkt, renumber, alookup_map_snd]
  cases alookup c idx with
  | none => rfl
  | some m =>
    rw [Option.map_some', Option.some_bind, Option.some_bind, alookup_map_snd]

theorem renumber_alookup {p : Nat} {idx : Index} {c : String} :
    alookup c (renumber p idx)
      = (alookup c idx).map
          (fun m => m.map (fun vl => (vl.1, vl.2.map (fun i => if i < p then i else i - 1)))) := by
  rw [renumber, alookup_map_snd]

theorem map_snd_fst {α β γ : Type} {g : β → γ} {l : List (α × β)} :
    (l.map (fun ab => (ab.1, g ab.2))).map Prod.fst = l.map Prod.fst := by
  simp [List.map_map]

/-! ### Preservation of `goodTable` by the table-engine calls -/

theorem alookup_fresh {cols : List String} {c : String} :
    alookup c (cols.map (fun c₀ => ((c₀ : String), ([] : ValMap))))
      = if c ∈ cols then some [] else none := by
  induction cols with
  | nil => simp [alookup]
  | cons c₀ rest ih =>
    by_cases h : c₀ = c
    · subst h
      simp [alookup]
    · simp [alookup, h, ih, Ne.symm h]

theorem good_fresh {name : String} {cols : List String} (hnd : cols.Nodup) :
    goodTable (Table.fresh name cols) := by
  have hbkt : ∀ c v, bkt (Table.fresh name cols).indexed_data c v = none := by
    intro c v
    rw [bkt]
    show ((alookup c (cols.map fun c₀ => (c₀, []))).bind fun m => alookup v m) = none
    rw [alookup_fresh]
    by_cases h : c ∈ cols <;> simp [h, alookup]
  refine ⟨hnd, ?_, ?_, ?_, ?_, ?_, ?_⟩
  · show (cols.map fun c₀ => (c₀, [])).map Prod.fst = cols
    rw [List.map_map]
    exact List.map_id cols
  · intro r hr
    simp [Table.fresh] at hr
  · intro c m hm
    show (m.map Prod.fst).Nodup
    rw [show alookup c (Table.fresh name cols).indexed_data
        = alookup c (cols.map fun c₀ => (c₀, ([] : ValMap))) from rfl, alookup_fresh] at hm
    by_cases h : c ∈ cols
    · rw [if_pos h] at hm
      cases hm
      simp
    · rw [if_neg h] at hm
      cases hm
  · intro c v l hl
    rw [hbkt] at hl
    cases hl
  · intro c v l q hl
    rw [hbkt] at hl
    cases hl
  · intro q c v hq _
    simp [Table.fresh] at hq

theorem recOf_mem {t : Table} {p : Nat} (h : p < t.records.length) :
    recOf t p ∈ t.records := by
  rw [recOf, List.getD_eq_getElem _ _ h]
  exact List.getElem_mem h

theorem good_rec_keys (t : Table) (g : goodTable t) {p : Nat} (h : p < t.records.length) :
    (recOf t p).map Prod.fst = t.columns :=
  g.recKeys _ (recOf_mem h)

/-- Soundness plus value-key uniqueness: a position filed under `(c, v)` whose
    record does not hold `v` at `c` is impossible. -/
theorem good_not_filed (t : Table) (g : goodTable t) {c : String} {v : Value} {l : Bucket}
    {p : Nat} (hl : bkt t.indexed_data c v = some l)
    (hv : alookup c (recOf t p) ≠ some v) : p ∉ l := by
  intro hp
  exact hv (g.bSound c v l p hl hp).2

theorem zip_map_fst {cols : List String} {r : List Value} (hlen : r.length = cols.length) :
    (cols.zip r).map Prod.fst = cols :=
  List.map_fst_zip cols r (le_of_eq hlen.symm)

theorem good_addOne {t : Table} {record : List Value} (g : goodTable t)
    (hlen : record.length = t.columns.length) : goodTable (t.addOne record) := by
  set pairs := t.columns.zip record with hpairs
  have hpfst : pairs.map Prod.fst = t.columns := zip_map_fst hlen
  have hpnd : (pairs.map Prod.fst).Nodup := by rw [hpfst]; exact g.colsNodup
  set N := t.records.length with hN
  have hrecords : (t.addOne record).records = t.records ++ [pairs] := rfl
  have hidx : (t.addOne record).indexed_data = insertRec t.indexed_data pairs N := rfl
  have hlen' : (t.addOne record).records.length = N + 1 := by
    rw [hrecords, List.length_append, List.length_cons, List.length_nil]
  have hrecOf_lt : ∀ q, q < N → recOf (t.addOne record) q = recOf t q := by
    intro q hq
    rw [recOf, recOf, hrecords, List.getD_eq_getElem?_getD, List.getD_eq_getElem?_getD,
      List.getElem?_append_left hq]
  have hrecOf_self : recOf (t.addOne record) N = pairs := by
    rw [recOf, hrecords, List.getD_eq_getElem?_getD]
    simp
  have hcols : (t.addOne record).columns = t.columns := rfl
  refine ⟨?_, ?_, ?_, ?_, ?_, ?_, ?_⟩
  · rw [hcols]; exact g.colsNodup
  · rw [hidx, hcols, insertRec_map_fst]; exact g.idxKeys
  · intro r hr
    rw [hrecords] at hr
    rcases List.mem_append.mp hr with hr | hr
    · rw [hcols]; exact g.recKeys r hr
    · rw [List.mem_singleton] at hr
      rw [hr, hcols]; exact hpfst
  · intro c m hm
    rw [hidx] at hm
    cases hc : alookup c pairs with
    | none =>
      rw [insertRec_alookup_none hc] at hm
      exact g.vkeysNodup c m hm
    | some v =>
      rw [insertRec_alookup_some hpnd hc] at hm
      cases hm₀ : alookup c t.indexed_data with
      | none => rw [hm₀] at hm; cases hm
      | some m₀ =>
        rw [hm₀, Option.map_some'] at hm
        have hmm : m = bucketAppend v N m₀ := (Option.some.inj hm).symm
        subst hmm
        have hnd₀ := g.vkeysNodup c m₀ hm₀
        by_cases hvm : v ∈ m₀.map Prod.fst
        · rw [bucketAppend_map_fst_mem hvm]; exact hnd₀
        · rw [bucketAppend_map_fst_not_mem hvm]
          simp [List.nodup_append, hnd₀, hvm]
  · intro c v l hl
    rw [hidx] at hl
    cases hc : alookup c pairs with
    | none =>
      rw [insertRec_bkt_none hc] at hl
      exact g.bNodup c v l hl
    | some v₀ =>
      rw [insertRec_bkt_some hpnd hc] at hl
      by_cases hs : (alookup c t.indexed_data).isSome = true
      · rw [if_pos hs] at hl
        by_cases hv : v₀ = v
        · rw [if_pos hv] at hl
          have hll : l = (bkt t.indexed_data c v).getD [] ++ [N] := (Option.some.inj hl).symm
          subst hll
          cases hold : bkt t.indexed_data c v with
          | none => simp
          | some l₀ =>
            have hnd₀ := g.bNodup c v l₀ hold
            have hNnot : N ∉ l₀ := by
              intro hN₀
              exact absurd (g.bSound c v l₀ N hold hN₀).1 (lt_irrefl N)
            simp [List.nodup_append, hnd₀, hNnot]
        · rw [if_neg hv] at hl
          exact g.bNodup c v l hl
      · rw [if_neg hs] at hl
        cases hl
  · intro c v l q hl hq
    rw [hidx] at hl
    rw [hlen']
    cases hc : alookup c pairs with
    | none =>
      rw [insertRec_bkt_none hc] at hl
      obtain ⟨hlt, hval⟩ := g.bSound c v l q hl hq
      exact ⟨Nat.lt_succ_of_lt hlt, by rw [hrecOf_lt q hlt]; exact hval⟩
    | some v₀ =>
      rw [insertRec_bkt_some hpnd hc] at hl
      by_cases hs : (alookup c t.indexed_data).isSome = true
      · rw [if_pos hs] at hl
        by_cases hv : v₀ = v
        · rw [if_pos hv] at hl
          have hll : l = (bkt t.indexed_data c v).getD [] ++ [N] := (Option.some.inj hl).symm
          subst hll
          rcases List.mem_append.mp hq with hq | hq
          · cases hold : bkt t.indexed_data c v with
            | none => rw [hold] at hq; cases hq
            | some l₀ =>
              rw [hold] at hq
              obtain ⟨hlt, hval⟩ := g.bSound c v l₀ q hold hq
              exact ⟨Nat.lt_succ_of_lt hlt, by rw [hrecOf_lt q hlt]; exact hval⟩
          · rw [List.mem_singleton] at hq
            subst hq
            refine ⟨Nat.lt_succ_self _, ?_⟩
            rw [hrecOf_self, ← hv]
            exact hc
        · rw [if_neg hv] at hl
          obtain ⟨hlt, hval⟩ := g.bSound c v l q hl hq
          exact ⟨Nat.lt_succ_of_lt hlt, by rw [hrecOf_lt q hlt]; exact hval⟩
      · rw [if_neg hs] at hl
        cases hl
  · intro q c v hq hval
    rw [hlen'] at hq
    rw [hidx]
    rcases Nat.lt_succ_iff_lt_or_eq.mp hq with hq | hq
    · rw [hrecOf_lt q hq] at hval
      obtain ⟨l, hl, hql⟩ := g.bComplete q c v hq hval
      have hs : (alookup c t.indexed_data).isSome = true := by
        rw [bkt] at hl
        cases hm₀ : alookup c t.indexed_data with
        | none => rw [hm₀] at hl; cases hl
        | some m₀ => simp
      cases hc : alookup c pairs with
      | none =>
        rw [insertRec_bkt_none hc]
        exact ⟨l, hl, hql⟩
      | some v₀ =>
        rw [insertRec_bkt_some hpnd hc, if_pos hs]
        by_cases hv : v₀ = v
        · rw [if_pos hv]
          refine ⟨(bkt t.indexed_data c v).getD [] ++ [N], rfl, ?_⟩
          rw [hl]
          exact List.mem_append_left _ hql
        · rw [if_neg hv]
          exact ⟨l, hl, hql⟩
    · subst hq
      rw [hrecOf_self] at hval
      have hcmem : c ∈ t.columns := by
        rw [← hpfst]
        exact List.mem_map_of_mem Prod.fst (alookup_mem hval)
      have hs : (alookup c t.indexed_data).isSome = true := by
        rw [alookup_isSome, g.idxKeys]
        exact hcmem
      rw [insertRec_bkt_some hpnd hval, if_pos hs, if_pos rfl]
      exact ⟨_, rfl, List.mem_append_right _ (List.mem_singleton.mpr rfl)⟩

theorem good_add_records {t : Table} {rs : List (List Value)} (g : goodTable t) :
    goodTable (t.add_records rs).1 := by
  induction rs generalizing t with
  | nil => exact g
  | cons r rest ih =>
    rw [Table.add_records]
    by_cases h : r.length ≠ t.columns.length
    · rw [if_pos h]
      exact g
    · rw [if_neg h]
      push_neg at h
      exact ih (good_addOne g h)

/-- Every `(col, value)` pair of the record at a live position has a bucket
    filing that position. -/
theorem good_old_pairs {t : Table} (g : goodTable t) {p : Nat} (hp : p < t.records.length) :
    ∀ cv ∈ recOf t p, ∃ l, bkt t.indexed_data cv.1 cv.2 = some l ∧ p ∈ l := by
  intro cv hcv
  have hnd : ((recOf t p).map Prod.fst).Nodup := by
    rw [good_rec_keys t g hp]
    exact g.colsNodup
  exact g.bComplete p cv.1 cv.2 hp (mem_alookup hnd hcv)

/-- Elimination of a successful `Table.update`: the bounds and arity checks
    passed, the removal pass succeeded, and the result has the updated record
    array and re-inserted index. -/
theorem update_some {t : Table} {rn : Nat} {data : List Value} {t₁ : Table}
    (h : t.update rn data = some t₁) :
    (1 ≤ rn ∧ rn ≤ t.records.length) ∧ data.length = t.columns.length ∧
    ∃ idx₁, removeAll (rn - 1) (recOf t (rn - 1)) t.indexed_data = some idx₁ ∧
      t₁ = { t with records := t.records.set (rn - 1) (t.columns.zip data),
                    indexed_data := insertRec idx₁ (t.columns.zip data) (rn - 1) } := by
  rw [Table.update] at h
  by_cases h1 : 1 ≤ rn ∧ rn ≤ t.records.length
  · rw [if_neg (not_not_intro h1)] at h
    by_cases h2 : data.length = t.columns.length
    · rw [if_neg (not_not_intro h2)] at h
      cases hrm : removeAll (rn - 1) (recOf t (rn - 1)) t.indexed_data with
      | none => rw [hrm] at h; cases h
      | some idx₁ =>
        rw [hrm] at h
        exact ⟨h1, h2, idx₁, rfl, (Option.some.inj h).symm⟩
    · rw [if_pos h2] at h
      cases h
  · rw [if_pos h1] at h
    cases h

theorem good_update {t t₁ : Table} {rn : Nat} {data : List Value} (g : goodTable t)
    (h : t.update rn data = some t₁) : goodTable t₁ := by
  obtain ⟨⟨h1, h2⟩, hlen, idx₁, hrm, ht₁⟩ := update_some h
  subst ht₁
  set p := rn - 1 with hp
  have hpN : p < t.records.length := by omega
  set old := recOf t p with hold
  set newRec := t.columns.zip data with hnew
  have hofst : old.map Prod.fst = t.columns := good_rec_keys t g hpN
  have hond : (old.map Prod.fst).Nodup := by rw [hofst]; exact g.colsNodup
  have hnfst : newRec.map Prod.fst = t.columns := zip_map_fst hlen
  have hnnd : (newRec.map Prod.fst).Nodup := by rw [hnfst]; exact g.colsNodup
  obtain ⟨idx₁', hrm', hfst₁, hvk₁, hsame, hrem⟩ :=
    removeAll_spec hond (good_old_pairs g hpN)
  have heq : idx₁ = idx₁' := Option.some.inj (hrm.symm.trans hrm')
  subst heq
  -- the description of a bucket the removal pass touched
  have hb₁ : ∀ c v, alookup c old = some v →
      ∃ l l₁, bkt t.indexed_data c v = some l ∧ p ∈ l ∧ removeFirst p l = some l₁ ∧
        bkt idx₁ c v = some l₁ ∧ l₁.Nodup ∧ (∀ y, y ∈ l₁ ↔ y ∈ l ∧ y ≠ p) := by
    intro c v hcv
    obtain ⟨l, hl, hpl⟩ := good_old_pairs g hpN (c, v) (alookup_mem hcv)
    obtain ⟨l₁, hrf, hbl₁⟩ := hrem c v l hcv hl
    obtain ⟨hl₁nd, hiff⟩ := removeFirst_nodup (g.bNodup c v l hl) hrf
    exact ⟨l, l₁, hl, hpl, hrf, hbl₁, hl₁nd, hiff⟩
  -- no bucket of the removed index files p
  have hnp : ∀ c v l₁, bkt idx₁ c v = some l₁ → p ∉ l₁ := by
    intro c v l₁ h₁ hp₁
    by_cases hcv : alookup c old = some v
    · obtain ⟨l, l₁', hl, hpl, hrf, hbl₁, _, hiff⟩ := hb₁ c v hcv
      rw [h₁] at hbl₁
      have he : l₁ = l₁' := Option.some.inj hbl₁
      subst he
      exact ((hiff p).mp hp₁).2 rfl
    · rw [hsame c v hcv] at h₁
      exact good_not_filed t g h₁ hcv hp₁
  have hnd₁ : ∀ c v l₁, bkt idx₁ c v = some l₁ → l₁.Nodup := by
    intro c v l₁ h₁
    by_cases hcv : alookup c old = some v
    · obtain ⟨l, l₁', hl, hpl, hrf, hbl₁, hnd', hiff⟩ := hb₁ c v hcv
      rw [h₁] at hbl₁
      have he : l₁ = l₁' := Option.some.inj hbl₁
      subst he
      exact hnd'
    · rw [hsame c v hcv] at h₁
      exact g.bNodup c v l₁ h₁
  have hmem₁ : ∀ c v l₁ q, bkt idx₁ c v = some l₁ → q ∈ l₁ →
      q ≠ p ∧ ∃ l, bkt t.indexed_data c v = some l ∧ q ∈ l := by
    intro c v l₁ q h₁ hq
    by_cases hcv : alookup c old = some v
    · obtain ⟨l, l₁', hl, hpl, hrf, hbl₁, hnd', hiff⟩ := hb₁ c v hcv
      rw [h₁] at hbl₁
      have he : l₁ = l₁' := Option.some.inj hbl₁
      subst he
      obtain ⟨hql, hqp⟩ := (hiff q).mp hq
      exact ⟨hqp, l, hl, hql⟩
    · rw [hsame c v hcv] at h₁
      refine ⟨?_, l₁, h₁, hq⟩
      rintro rfl
      exact good_not_filed t g h₁ hcv hq
  have hcomp₁ : ∀ c v l q, bkt t.indexed_data c v = some l → q ∈ l → q ≠ p →
      ∃ l₁, bkt idx₁ c v = some l₁ ∧ q ∈ l₁ := by
    intro c v l q hl hql hqp
    by_cases hcv : alookup c old = some v
    · obtain ⟨l', l₁, hl', hpl, hrf, hbl₁, hnd', hiff⟩ := hb₁ c v hcv
      have he : l' = l := Option.some.inj (hl'.symm.trans hl)
      subst he
      exact ⟨l₁, hbl₁, (hiff q).mpr ⟨hql, hqp⟩⟩
    · rw [← hsame c v hcv] at hl
      exact ⟨l, hl, hql⟩
  have hvmap : ∀ c m₁, alookup c idx₁ = some m₁ →
      ∃ m₀, alookup c t.indexed_data = some m₀ ∧ m₁.map Prod.fst = m₀.map Prod.fst := by
    intro c m₁ h₁
    have hx := hvk₁ c
    rw [h₁, Option.map_some'] at hx
    cases hm₀ : alookup c t.indexed_data with
    | none => rw [hm₀] at hx; cases hx
    | some m₀ =>
      rw [hm₀, Option.map_some'] at hx
      exact ⟨m₀, rfl, Option.some.inj hx⟩
  have hkeys₁ : ∀ c, (alookup c idx₁).isSome = true
      ↔ (alookup c t.indexed_data).isSome = true := by
    intro c
    rw [alookup_isSome, alookup_isSome, hfst₁]
  -- facts about the updated record array
  have hlen₁ : (t.records.set p newRec).length = t.records.length := List.length_set _ _ _
  have hrec_ne : ∀ q, q ≠ p →
      (t.records.set p newRec).getD q [] = recOf t q := by
    intro q hq
    rw [recOf, List.getD_eq_getElem?_getD, List.getD_eq_getElem?_getD,
      List.getElem?_set_ne (Ne.symm hq)]
  have hrec_p : (t.records.set p newRec).getD p [] = newRec := by
    rw [List.getD_eq_getElem?_getD, List.getElem?_set_self hpN]
    rfl
  refine ⟨g.colsNodup, ?_, ?_, ?_, ?_, ?_, ?_⟩
  · show (insertRec idx₁ newRec p).map Prod.fst = t.columns
    rw [insertRec_map_fst, hfst₁]
    exact g.idxKeys
  · intro r hr
    rcases List.mem_or_eq_of_mem_set hr with hr | hr
    · exact g.recKeys r hr
    · rw [hr]
      exact hnfst
  · intro c m hm
    cases hc : alookup c newRec with
    | none =>
      rw [show alookup c (insertRec idx₁ newRec p) = alookup c idx₁ from
        insertRec_alookup_none hc] at hm
      obtain ⟨m₀, hm₀, hkeq⟩ := hvmap c m hm
      rw [hkeq]
      exact g.vkeysNodup c m₀ hm₀
    | some v =>
      rw [show alookup c (insertRec idx₁ newRec p)
          = (alookup c idx₁).map (bucketAppend v p) from insertRec_alookup_some hnnd hc] at hm
      cases hm₁ : alookup c idx₁ with
      | none => rw [hm₁] at hm; cases hm
      | some m₁ =>
        rw [hm₁, Option.map_some'] at hm
        have hmm : m = bucketAppend v p m₁ := (Option.some.inj hm).symm
        subst hmm
        obtain ⟨m₀, hm₀, hkeq⟩ := hvmap c m₁ hm₁
        have hnd₀ : (m₁.map Prod.fst).Nodup := by
          rw [hkeq]
          exact g.vkeysNodup c m₀ hm₀
        by_cases hvm : v ∈ m₁.map Prod.fst
        · rw [bucketAppend_map_fst_mem hvm]
          exact hnd₀
        · rw [bucketAppend_map_fst_not_mem hvm]
          simp [List.nodup_append, hnd₀, hvm]
  · intro c v l hl
    show l.Nodup
    cases hc : alookup c newRec with
    | none =>
      rw [insertRec_bkt_none hc] at hl
      exact hnd₁ c v l hl
    | some v₀ =>
      rw [insertRec_bkt_some hnnd hc] at hl
      by_cases hs : (alookup c idx₁).isSome = true
      · rw [if_pos hs] at hl
        by_cases hv : v₀ = v
        · rw [if_pos hv] at hl
          have hll : l = (bkt idx₁ c v).getD [] ++ [p] := (Option.some.inj hl).symm
          subst hll
          cases h₁ : bkt idx₁ c v with
          | none => simp
          | some l₁ =>
            have := hnd₁ c v l₁ h₁
            have hpn := hnp c v l₁ h₁
            simp [List.nodup_append, this, hpn]
        · rw [if_neg hv] at hl
          exact hnd₁ c v l hl
      · rw [if_neg hs] at hl
        cases hl
  · intro c v l q hl hq
    rw [hlen₁]
    cases hc : alookup c newRec with
    | none =>
      rw [insertRec_bkt_none hc] at hl
      obtain ⟨hqp, l₀, hl₀, hql₀⟩ := hmem₁ c v l q hl hq
      obtain ⟨hlt, hval⟩ := g.bSound c v l₀ q hl₀ hql₀
      refine ⟨hlt, ?_⟩
      show alookup c ((t.records.set p newRec).getD q []) = some v
      rw [hrec_ne q hqp]
      exact hval
    | some v₀ =>
      rw [insertRec_bkt_some hnnd hc] at hl
      by_cases hs : (alookup c idx₁).isSome = true
      · rw [if_pos hs] at hl
        by_cases hv : v₀ = v
        · rw [if_pos hv] at hl
          have hll : l = (bkt idx₁ c v).getD [] ++ [p] := (Option.some.inj hl).symm
          subst hll
          rcases List.mem_append.mp hq with hq | hq
          · cases h₁ : bkt idx₁ c v with
            | none => rw [h₁] at hq; cases hq
            | some l₁ =>
              rw [h₁] at hq
              obtain ⟨hqp, l₀, hl₀, hql₀⟩ := hmem₁ c v l₁ q h₁ hq
              obtain ⟨hlt, hval⟩ := g.bSound c v l₀ q hl₀ hql₀
              refine ⟨hlt, ?_⟩
              show alookup c ((t.records.set p newRec).getD q []) = some v
              rw [hrec_ne q hqp]
              exact hval
          · rw [List.mem_singleton] at hq
            refine ⟨?_, ?_⟩
            · rw [hq]
              exact hpN
            · show alookup c ((t.records.set p newRec).getD q []) = some v
              rw [hq, hrec_p, ← hv]
              exact hc
        · rw [if_neg hv] at hl
          obtain ⟨hqp, l₀, hl₀, hql₀⟩ := hmem₁ c v l q hl hq
          obtain ⟨hlt, hval⟩ := g.bSound c v l₀ q hl₀ hql₀
          refine ⟨hlt, ?_⟩
          show alookup c ((t.records.set p newRec).getD q []) = some v
          rw [hrec_ne q hqp]
          exact hval
      · rw [if_neg hs] at hl
        cases hl
  · intro q c v hq hval
    rw [hlen₁] at hq
    by_cases hqp : q = p
    · replace hval : alookup c newRec = some v := by
        simp only [recOf] at hval
        rw [hqp, hrec_p] at hval
        exact hval
      have hcmem : c ∈ t.columns := by
        rw [← hnfst]
        exact List.mem_map_of_mem Prod.fst (alookup_mem hval)
      have hs : (alookup c idx₁).isSome = true := by
        rw [hkeys₁ c, alookup_isSome, g.idxKeys]
        exact hcmem
      show ∃ l, bkt (insertRec idx₁ newRec p) c v = some l ∧ q ∈ l
      rw [insertRec_bkt_some hnnd hval, if_pos hs, if_pos rfl]
      refine ⟨_, rfl, ?_⟩
      rw [hqp]
      exact List.mem_append_right _ (List.mem_singleton.mpr rfl)
    · replace hval : alookup c (recOf t q) = some v := by
        simp only [recOf] at hval
        rw [hrec_ne q hqp] at hval
        exact hval
      obtain ⟨l, hl, hql⟩ := g.bComplete q c v hq hval
      obtain ⟨l₁, hl₁, hql₁⟩ := hcomp₁ c v l q hl hql hqp
      show ∃ l₂, bkt (insertRec idx₁ newRec p) c v = some l₂ ∧ q ∈ l₂
      cases hc : alookup c newRec with
      | none =>
        rw [insertRec_bkt_none hc]
        exact ⟨l₁, hl₁, hql₁⟩
      | some v₀ =>
        have hs : (alookup c idx₁).isSome = true := by
          rw [bkt] at hl₁
          cases hone : alookup c idx₁ with
          | none => rw [hone] at hl₁; cases hl₁
          | some m₁ => simp
        rw [insertRec_bkt_some hnnd hc, if_pos hs]
        by_cases hv : v₀ = v
        · rw [if_pos hv]
          refine ⟨(bkt idx₁ c v).getD [] ++ [p], rfl, ?_⟩
          rw [hl₁]
          exact List.mem_append_left _ hql₁
        · rw [if_neg hv]
          exact ⟨l₁, hl₁, hql₁⟩

/-- Elimination of a successful `Table.delete`: the bounds check passed, the
    removal pass succeeded, and the result has the popped record array and the
    renumbered index. -/
theorem delete_some {t : Table} {rn : Nat} {t₁ : Table} (h : t.delete rn = some t₁) :
    (1 ≤ rn ∧ rn ≤ t.records.length) ∧
    ∃ idx₁, delRemoveAll (rn - 1) (recOf t (rn - 1)) t.indexed_data = some idx₁ ∧
      t₁ = { t with records := t.records.eraseIdx (rn - 1),
                    indexed_data := renumber (rn - 1) idx₁ } := by
  rw [Table.delete] at h
  by_cases h1 : 1 ≤ rn ∧ rn ≤ t.records.length
  · rw [if_neg (not_not_intro h1)] at h
    cases hrm : delRemoveAll (rn - 1) (recOf t (rn - 1)) t.indexed_data with
    | none => rw [hrm] at h; cases h
    | some idx₁ =>
      rw [hrm] at h
      exact ⟨h1, idx₁, rfl, (Option.some.inj h).symm⟩
  · rw [if_pos h1] at h
    cases h

theorem good_delete {t t₁ : Table} {rn : Nat} (g : goodTable t)
    (h : t.delete rn = some t₁) : goodTable t₁ := by
  obtain ⟨⟨h1, h2⟩, idx₁, hrm, ht₁⟩ := delete_some h
  subst ht₁
  set p := rn - 1 with hp
  have hpN : p < t.records.length := by omega
  set old := recOf t p with hold
  have hofst : old.map Prod.fst = t.columns := good_rec_keys t g hpN
  have hond : (old.map Prod.fst).Nodup := by rw [hofst]; exact g.colsNodup
  obtain ⟨idx₁', hrm', hfst₁, hvk₁, hsame, hrem⟩ :=
    delRemoveAll_spec hond g.vkeysNodup (good_old_pairs g hpN)
  have heq : idx₁ = idx₁' := Option.some.inj (hrm.symm.trans hrm')
  subst heq
  have hb₁ : ∀ c v, alookup c old = some v →
      ∃ l l₁, bkt t.indexed_data c v = some l ∧ p ∈ l ∧ removeFirst p l = some l₁ ∧
        bkt idx₁ c v = (if l₁ = [] then none else some l₁) ∧ l₁.Nodup ∧
        (∀ y, y ∈ l₁ ↔ y ∈ l ∧ y ≠ p) := by
    intro c v hcv
    obtain ⟨l, hl, hpl⟩ := good_old_pairs g hpN (c, v) (alookup_mem hcv)
    obtain ⟨l₁, hrf, hbl₁⟩ := hrem c v l hcv hl
    obtain ⟨hl₁nd, hiff⟩ := removeFirst_nodup (g.bNodup c v l hl) hrf
    exact ⟨l, l₁, hl, hpl, hrf, hbl₁, hl₁nd, hiff⟩
  have hnp : ∀ c v l₁, bkt idx₁ c v = some l₁ → p ∉ l₁ := by
    intro c v l₁ h₁ hp₁
    by_cases hcv : alookup c old = some v
    · obtain ⟨l, l₁', hl, hpl, hrf, hbl₁, _, hiff⟩ := hb₁ c v hcv
      rw [h₁] at hbl₁
      by_cases hnil : l₁' = []
      · rw [if_pos hnil] at hbl₁
        cases hbl₁
      · rw [if_neg hnil] at hbl₁
        have he : l₁ = l₁' := Option.some.inj hbl₁
        subst he
        exact ((hiff p).mp hp₁).2 rfl
    · rw [hsame c v hcv] at h₁
      exact good_not_filed t g h₁ hcv hp₁
  have hnd₁ : ∀ c v l₁, bkt idx₁ c v = some l₁ → l₁.Nodup := by
    intro c v l₁ h₁
    by_cases hcv : alookup c old = some v
    · obtain ⟨l, l₁', hl, hpl, hrf, hbl₁, hnd', hiff⟩ := hb₁ c v hcv
      rw [h₁] at hbl₁
      by_cases hnil : l₁' = []
      · rw [if_pos hnil] at hbl₁
        cases hbl₁
      · rw [if_neg hnil] at hbl₁
        have he : l₁ = l₁' := Option.some.inj hbl₁
        subst he
        exact hnd'
    · rw [hsame c v hcv] at h₁
      exact g.bNodup c v l₁ h₁
  have hmem₁ : ∀ c v l₁ q, bkt idx₁ c v = some l₁ → q ∈ l₁ →
      q ≠ p ∧ ∃ l, bkt t.indexed_data c v = some l ∧ q ∈ l := by
    intro c v l₁ q h₁ hq
    by_cases hcv : alookup c old = some v
    · obtain ⟨l, l₁', hl, hpl, hrf, hbl₁, hnd', hiff⟩ := hb₁ c v hcv
      rw [h₁] at hbl₁
      by_cases hnil : l₁' = []
      · rw [if_pos hnil] at hbl₁
        cases hbl₁
      · rw [if_neg hnil] at hbl₁
        have he : l₁ = l₁' := Option.some.inj hbl₁
        subst he
        obtain ⟨hql, hqp⟩ := (hiff q).mp hq
        exact ⟨hqp, l, hl, hql⟩
    · rw [hsame c v hcv] at h₁
      refine ⟨?_, l₁, h₁, hq⟩
      rintro rfl
      exact good_not_filed t g h₁ hcv hq
  have hcomp₁ : ∀ c v l q, bkt t.indexed_data c v = some l → q ∈ l → q ≠ p →
      ∃ l₁, bkt idx₁ c v = some l₁ ∧ q ∈ l₁ := by
    intro c v l q hl hql hqp
    by_cases hcv : alookup c old = some v
    · obtain ⟨l', l₁, hl', hpl, hrf, hbl₁, hnd', hiff⟩ := hb₁ c v hcv
      have he : l' = l := Option.some.inj (hl'.symm.trans hl)
      subst he
      have hql₁ : q ∈ l₁ := (hiff q).mpr ⟨hql, hqp⟩
      have hnil : l₁ ≠ [] := fun he₀ => by rw [he₀] at hql₁; cases hql₁
      rw [if_neg hnil] at hbl₁
      exact ⟨l₁, hbl₁, hql₁⟩
    · rw [← hsame c v hcv] at hl
      exact ⟨l, hl, hql⟩
  have hvnodup₁ : ∀ c m₁, alookup c idx₁ = some m₁ → (m₁.map Prod.fst).Nodup := by
    intro c m₁ h₁
    obtain ⟨m₀, hm₀, hsub⟩ := hvk₁ c m₁ h₁
    exact (g.vkeysNodup c m₀ hm₀).sublist hsub
  -- facts about the popped record array
  have hlenE : (t.records.eraseIdx p).length = t.records.length - 1 := by
    rw [List.length_eraseIdx]
    simp [hpN]
  have hrecE_lt : ∀ q, q < p → (t.records.eraseIdx p).getD q [] = recOf t q := by
    intro q hq
    rw [recOf, List.getD_eq_getElem?_getD, List.getD_eq_getElem?_getD,
      List.getElem?_eraseIdx_of_lt _ _ _ hq]
  have hrecE_ge : ∀ q, p ≤ q → (t.records.eraseIdx p).getD q [] = recOf t (q + 1) := by
    intro q hq
    rw [recOf, List.getD_eq_getElem?_getD, List.getD_eq_getElem?_getD,
      List.getElem?_eraseIdx_of_ge _ _ _ hq]
  refine ⟨g.colsNodup, ?_, ?_, ?_, ?_, ?_, ?_⟩
  · show (renumber p idx₁).map Prod.fst = t.columns
    rw [renumber_map_fst, hfst₁]
    exact g.idxKeys
  · intro r hr
    exact g.recKeys r (List.mem_of_mem_eraseIdx hr)
  · intro c m hm
    replace hm : alookup c (renumber p idx₁) = some m := hm
    rw [renumber_alookup] at hm
    cases hm₁ : alookup c idx₁ with
    | none => rw [hm₁] at hm; cases hm
    | some m₁ =>
      rw [hm₁, Option.map_some'] at hm
      have hmm := (Option.some.inj hm).symm
      rw [hmm, map_snd_fst]
      exact hvnodup₁ c m₁ hm₁
  · intro c v l hl
    replace hl : bkt (renumber p idx₁) c v = some l := hl
    rw [bkt_renumber] at hl
    cases h₁ : bkt idx₁ c v with
    | none => rw [h₁] at hl; cases hl
    | some l₁ =>
      rw [h₁, Option.map_some'] at hl
      have hll := (Option.some.inj hl).symm
      rw [hll]
      refine (hnd₁ c v l₁ h₁).map_on ?_
      intro x hx y hy hxy
      have hxp : x ≠ p := fun he => (hnp c v l₁ h₁) (he ▸ hx)
      have hyp : y ≠ p := fun he => (hnp c v l₁ h₁) (he ▸ hy)
      simp only at hxy
      split at hxy <;> split at hxy <;> omega
  · intro c v l q hl hq
    replace hl : bkt (renumber p idx₁) c v = some l := hl
    rw [bkt_renumber] at hl
    cases h₁ : bkt idx₁ c v with
    | none => rw [h₁] at hl; cases hl
    | some l₁ =>
      rw [h₁, Option.map_some'] at hl
      have hll := (Option.some.inj hl).symm
      rw [hll] at hq
      obtain ⟨q₀, hq₀, hsq⟩ := List.mem_map.mp hq
      have hq₀p : q₀ ≠ p := fun he => (hnp c v l₁ h₁) (he ▸ hq₀)
      obtain ⟨_, l₀, hl₀, hql₀⟩ := hmem₁ c v l₁ q₀ h₁ hq₀
      obtain ⟨hlt₀, hval₀⟩ := g.bSound c v l₀ q₀ hl₀ hql₀
      show q < (t.records.eraseIdx p).length
          ∧ alookup c ((t.records.eraseIdx p).getD q []) = some v
      rw [hlenE]
      by_cases hq₀lt : q₀ < p
      · have hqq : q = q₀ := by
          rw [← hsq]
          simp [hq₀lt]
        subst hqq
        refine ⟨by omega, ?_⟩
        rw [hrecE_lt q hq₀lt]
        exact hval₀
      · have hqq : q = q₀ - 1 := by
          rw [← hsq]
          simp [hq₀lt]
        subst hqq
        refine ⟨by omega, ?_⟩
        rw [hrecE_ge (q₀ - 1) (by omega), show q₀ - 1 + 1 = q₀ by omega]
        exact hval₀
  · intro q c v hq hval
    replace hq : q < (t.records.eraseIdx p).length := hq
    rw [hlenE] at hq
    replace hval : alookup c ((t.records.eraseIdx p).getD q []) = some v := by
      simp only [recOf] at hval
      exact hval
    show ∃ l, bkt (renumber p idx₁) c v = some l ∧ q ∈ l
    rw [bkt_renumber]
    by_cases hqlt : q < p
    · rw [hrecE_lt q hqlt] at hval
      obtain ⟨l₀, hl₀, hql₀⟩ := g.bComplete q c v (by omega) hval
      obtain ⟨l₁, hl₁, hql₁⟩ := hcomp₁ c v l₀ q hl₀ hql₀ (by omega)
      refine ⟨l₁.map (fun i => if i < p then i else i - 1), by rw [hl₁, Option.map_some'], ?_⟩
      refine List.mem_map.mpr ⟨q, hql₁, ?_⟩
      simp [hqlt]
    · rw [hrecE_ge q (by omega)] at hval
      obtain ⟨l₀, hl₀, hql₀⟩ := g.bComplete (q + 1) c v (by omega) hval
      obtain ⟨l₁, hl₁, hql₁⟩ := hcomp₁ c v l₀ (q + 1) hl₀ hql₀ (by omega)
      refine ⟨l₁.map (fun i => if i < p then i else i - 1), by rw [hl₁, Option.map_some'], ?_⟩
      refine List.mem_map.mpr ⟨q + 1, hql₁, ?_⟩
      simp [hqlt]
      omega

theorem good_applyOp {t : Table} (g : goodTable t) (op : TOp) : goodTable (applyOp t op) := by
  cases op with
  | add rs => exact good_add_records g
  | upd rn data =>
    show goodTable ((t.update rn data).getD t)
    cases h : t.update rn data with
    | none => exact g
    | some t₁ => exact good_update g h
  | del rn =>
    show goodTable ((t.delete rn).getD t)
    cases h : t.delete rn with
    | none => exact g
    | some t₁ => exact good_delete g h

theorem good_runOps {t : Table} (g : goodTable t) (ops : List TOp) :
    goodTable (runOps t ops) := by
  induction ops generalizing t with
  | nil => exact g
  | cons op rest ih =>
    show goodTable (runOps (applyOp t op) rest)
    exact ih (good_applyOp g op)

theorem good_reachT {name : String} {cols : List String} {ops : List TOp}
    (hnd : cols.Nodup) : goodTable (reachT name cols ops) :=
  good_runOps (good_fresh hnd) ops

/-- On a well-formed table, a position is filed under `(c, v)` exactly when it
    is a live position whose record holds `v` at `c`. -/
theorem good_memB {t : Table} (g : goodTable t) {c : String} {v : Value} {q : Nat} :
    memB t c v q ↔ q < t.records.length ∧ alookup c (recOf t q) = some v := by
  constructor
  · rintro ⟨l, hl, hql⟩
    exact g.bSound c v l q hl hql
  · rintro ⟨hq, hval⟩
    obtain ⟨l, hl, hql⟩ := g.bComplete q c v hq hval
    exact ⟨l, hl, hql⟩

/-! ### The claims -/

/-- C1: Index consistency invariant: for every sequence of table-engine calls
    `add`/`update`/`delete` on a table, after each call returns, for every
    column `c` and every position `p` with a record present, `record[p][c]` is
    a key of `index[c]`, `p` is a member of `index[c][record[p][c]]`, and no
    other bucket of `index[c]` contains `p`. -/
theorem claim1_index_consistency (name : String) (cols : List String) (ops : List TOp)
    (hnd : cols.Nodup) :
    ∀ p, p < (reachT name cols ops).records.length →
      ∀ c v, alookup c (recOf (reachT name cols ops) p) = some v →
        (∃ m, alookup c (reachT name cols ops).indexed_data = some m ∧
          ∃ l, alookup v m = some l ∧ p ∈ l) ∧
        (∀ v₁ l₁, bkt (reachT name cols ops).indexed_data c v₁ = some l₁ →
          p ∈ l₁ → v₁ = v) := by
  intro p hp c v hval
  have g : goodTable (reachT name cols ops) := good_reachT hnd
  constructor
  · obtain ⟨l, hl, hpl⟩ := g.bComplete p c v hp hval
    rw [bkt] at hl
    cases hm : alookup c (reachT name cols ops).indexed_data with
    | none => rw [hm] at hl; cases hl
    | some m =>
      rw [hm, Option.some_bind] at hl
      exact ⟨m, rfl, l, hl, hpl⟩
  · intro v₁ l₁ hl₁ hpl₁
    have hv₁ := (g.bSound c v₁ l₁ p hl₁ hpl₁).2
    exact Option.some.inj (hv₁.symm.trans hval)

/-- Witness for C1: the Scenario A-B-C call sequence (one call of each kind)
    on the `Users` table, checked at the surviving record's name field. -/
theorem claim1_index_consistency_witness :
    (∃ m, alookup "name" (reachT "Users" ["id", "name", "age"] opsBC).indexed_data = some m ∧
      ∃ l, alookup (Value.str "Bob") m = some l ∧ 0 ∈ l) ∧
    (∀ v₁ l₁, bkt (reachT "Users" ["id", "name", "age"] opsBC).indexed_data "name" v₁ = some l₁ →
      0 ∈ l₁ → v₁ = Value.str "Bob") :=
  claim1_index_consistency "Users" ["id", "name", "age"] opsBC (by decide) 0 (by decide)
    "name" (Value.str "Bob") (by decide)

/-- Full membership characterisation of a successful `Table.delete`: the new
    index files `q` under `(c, v)` exactly when the old index filed `q` (for
    survivors left of the hole) or `q + 1` (for shifted survivors) there. -/
theorem delete_bkt_mem {t t₁ : Table} {rn : Nat} (g : goodTable t)
    (h : t.delete rn = some t₁) :
    ∀ c v q, memB t₁ c v q ↔
      ((q < rn - 1 ∧ memB t c v q) ∨ (rn - 1 ≤ q ∧ memB t c v (q + 1))) := by
  obtain ⟨⟨h1, h2⟩, idx₁, hrm, ht₁⟩ := delete_some h
  subst ht₁
  set p := rn - 1 with hp
  have hpN : p < t.records.length := by omega
  set old := recOf t p with hold
  have hofst : old.map Prod.fst = t.columns := good_rec_keys t g hpN
  have hond : (old.map Prod.fst).Nodup := by rw [hofst]; exact g.colsNodup
  obtain ⟨idx₁', hrm', hfst₁, hvk₁, hsame, hrem⟩ :=
    delRemoveAll_spec hond g.vkeysNodup (good_old_pairs g hpN)
  have heq : idx₁ = idx₁' := Option.some.inj (hrm.symm.trans hrm')
  subst heq
  have hb₁ : ∀ c v, alookup c old = some v →
      ∃ l l₁, bkt t.indexed_data c v = some l ∧ p ∈ l ∧ removeFirst p l = some l₁ ∧
        bkt idx₁ c v = (if l₁ = [] then none else some l₁) ∧ l₁.Nodup ∧
        (∀ y, y ∈ l₁ ↔ y ∈ l ∧ y ≠ p) := by
    intro c v hcv
    obtain ⟨l, hl, hpl⟩ := good_old_pairs g hpN (c, v) (alookup_mem hcv)
    obtain ⟨l₁, hrf, hbl₁⟩ := hrem c v l hcv hl
    obtain ⟨hl₁nd, hiff⟩ := removeFirst_nodup (g.bNodup c v l hl) hrf
    exact ⟨l, l₁, hl, hpl, hrf, hbl₁, hl₁nd, hiff⟩
  have hnp : ∀ c v l₁, bkt idx₁ c v = some l₁ → p ∉ l₁ := by
    intro c v l₁ h₁ hp₁
    by_cases hcv : alookup c old = some v
    · obtain ⟨l, l₁', hl, hpl, hrf, hbl₁, _, hiff⟩ := hb₁ c v hcv
      rw [h₁] at hbl₁
      by_cases hnil : l₁' = []
      · rw [if_pos hnil] at hbl₁
        cases hbl₁
      · rw [if_neg hnil] at hbl₁
        have he : l₁ = l₁' := Option.some.inj hbl₁
        subst he
        exact ((hiff p).mp hp₁).2 rfl
    · rw [hsame c v hcv] at h₁
      exact good_not_filed t g h₁ hcv hp₁
  have hmem₁ : ∀ c v q, (∃ l₁, bkt idx₁ c v = some l₁ ∧ q ∈ l₁) ↔
      (q ≠ p ∧ memB t c v q) := by
    intro c v q
    constructor
    · rintro ⟨l₁, h₁, hq⟩
      by_cases hcv : alookup c old = some v
      · obtain ⟨l, l₁', hl, hpl, hrf, hbl₁, hnd', hiff⟩ := hb₁ c v hcv
        rw [h₁] at hbl₁
        by_cases hnil : l₁' = []
        · rw [if_pos hnil] at hbl₁
          cases hbl₁
        · rw [if_neg hnil] at hbl₁
          have he : l₁ = l₁' := Option.some.inj hbl₁
          subst he
          obtain ⟨hql, hqp⟩ := (hiff q).mp hq
          exact ⟨hqp, l, hl, hql⟩
      · rw [hsame c v hcv] at h₁
        refine ⟨?_, l₁, h₁, hq⟩
        rintro rfl
        exact good_not_filed t g h₁ hcv hq
    · rintro ⟨hqp, l, hl, hql⟩
      by_cases hcv : alookup c old = some v
      · obtain ⟨l', l₁, hl', hpl, hrf, hbl₁, hnd', hiff⟩ := hb₁ c v hcv
        have he : l' = l := Option.some.inj (hl'.symm.trans hl)
        subst he
        have hql₁ : q ∈ l₁ := (hiff q).mpr ⟨hql, hqp⟩
        have hnil : l₁ ≠ [] := fun he₀ => by rw [he₀] at hql₁; cases hql₁
        rw [if_neg hnil] at hbl₁
        exact ⟨l₁, hbl₁, hql₁⟩
      · rw [← hsame c v hcv] at hl
        exact ⟨l, hl, hql⟩
  intro c v q
  have hren : memB { t with
      records := t.records.eraseIdx p,
      indexed_data := renumber p idx₁ } c v q ↔
      ∃ l₁, bkt idx₁ c v = some l₁ ∧
        q ∈ l₁.map (fun i => if i < p then i else i - 1) := by
    rw [memB]
    show (∃ l, bkt (renumber p idx₁) c v = some l ∧ q ∈ l) ↔ _
    rw [bkt_renumber]
    constructor
    · rintro ⟨l, hl, hq⟩
      cases h₁ : bkt idx₁ c v with
      | none => rw [h₁] at hl; cases hl
      | some l₁ =>
        rw [h₁, Option.map_some'] at hl
        exact ⟨l₁, rfl, (Option.some.inj hl) ▸ hq⟩
    · rintro ⟨l₁, h₁, hq⟩
      exact ⟨l₁.map (fun i => if i < p then i else i - 1), by rw [h₁, Option.map_some'], hq⟩
  rw [hren]
  constructor
  · rintro ⟨l₁, h₁, hq⟩
    obtain ⟨q₀, hq₀, hsq⟩ := List.mem_map.mp hq
    have hq₀p : q₀ ≠ p := fun he => (hnp c v l₁ h₁) (he ▸ hq₀)
    have hq₀t : memB t c v q₀ := ((hmem₁ c v q₀).mp ⟨l₁, h₁, hq₀⟩).2
    by_cases hlt : q₀ < p
    · left
      have : q = q₀ := by rw [← hsq]; simp [hlt]
      rw [this]
      exact ⟨hlt, hq₀t⟩
    · right
      have hgt : p < q₀ := by omega
      have : q = q₀ - 1 := by rw [← hsq]; simp [hlt]
      subst this
      exact ⟨by omega, by rw [show q₀ - 1 + 1 = q₀ by omega]; exact hq₀t⟩
  · rintro (⟨hlt, hmem⟩ | ⟨hge, hmem⟩)
    · obtain ⟨l₁, h₁, hq₁⟩ := (hmem₁ c v q).mpr ⟨by omega, hmem⟩
      refine ⟨l₁, h₁, List.mem_map.mpr ⟨q, hq₁, ?_⟩⟩
      simp [hlt]
    · obtain ⟨l₁, h₁, hq₁⟩ := (hmem₁ c v (q + 1)).mpr ⟨by omega, hmem⟩
      refine ⟨l₁, h₁, List.mem_map.mpr ⟨q + 1, hq₁, ?_⟩⟩
      have : ¬ (q + 1 < p) := by omega
      simp [this]

/-- C5: Delete renumbering: after a successful table-engine `delete(k)` on a
    reachable table, a position `q` is filed under `(c, v)` exactly when the
    old index filed `q` there with `q < k - 1` (unshifted survivor) or filed
    `q + 1` there with `k - 1 ≤ q` (survivor decremented by exactly 1) — in
    every column's buckets, with entries below the hole unchanged. -/
theorem claim5_delete_renumbering (name : String) (cols : List String) (ops : List TOp)
    (hnd : cols.Nodup) (k : Nat) (t₁ : Table)
    (h : (reachT name cols ops).delete k = some t₁) :
    ∀ c v q, memB t₁ c v q ↔
      ((q < k - 1 ∧ memB (reachT name cols ops) c v q) ∨
       (k - 1 ≤ q ∧ memB (reachT name cols ops) c v (q + 1))) :=
  delete_bkt_mem (good_reachT hnd) h

/-- Witness for C5: deleting position 1 from the two-record Scenario A table
    shifts Bob's index entry from position 1 down to position 0. -/
theorem claim5_delete_renumbering_witness :
    memB ((reachT "Users" ["id", "name", "age"] opsA).delete 1).get!
      "name" (Value.str "Bob") 0 := by
  have h := claim5_delete_renumbering "Users" ["id", "name", "age"] opsA (by decide) 1
    ((reachT "Users" ["id", "name", "age"] opsA).delete 1).get! rfl
    "name" (Value.str "Bob") 0
  refine h.mpr (Or.inr ⟨by decide, ?_⟩)
  exact ⟨[1], by decide, by decide⟩

/-! ### Search -/

theorem searchPositions_mem {t : Table} {v : Value} {cols : List String} {i : Nat}
    (h : i ∈ searchPositions t v cols) : ∃ c, c ∈ cols ∧ memB t c v i := by
  rw [searchPositions] at h
  obtain ⟨c, hc, hi⟩ := List.mem_flatMap.mp h
  refine ⟨c, hc, ?_⟩
  cases hm : alookup c t.indexed_data with
  | none =>
    rw [hm] at hi
    simp [alookup] at hi
  | some m =>
    rw [hm] at hi
    cases hv : alookup v m with
    | none =>
      rw [show ((some m).getD [] : ValMap) = m from rfl, hv] at hi
      cases hi
    | some l =>
      rw [show ((some m).getD [] : ValMap) = m from rfl, hv] at hi
      exact ⟨l, by rw [bkt, hm, Option.some_bind, hv], hi⟩

theorem mapM_get_of_lt {t : Table} {pos : List Nat}
    (h : ∀ i ∈ pos, i < t.records.length) :
    pos.mapM (fun i => t.records[i]?) = some (pos.map (fun i => t.records.getD i [])) := by
  induction pos with
  | nil => rfl
  | cons i rest ih =>
    have hi := h i (List.mem_cons_self _ _)
    have hsome : t.records[i]? = some (t.records.getD i []) := by
      rw [List.getElem?_eq_getElem hi, List.getD_eq_getElem _ _ hi]
    rw [List.mapM_cons, hsome, ih (fun j hj => h j (List.mem_cons_of_mem _ hj))]
    rfl

/-- On a table whose index files only live positions, `Table.search` succeeds
    and returns exactly the spec's §4.1 result sequence. -/
theorem search_eq_searchSpec {t : Table}
    (hrange : ∀ c v q, memB t c v q → q < t.records.length)
    (v : Value) (cols : List String) :
    t.search v cols = some (searchSpec t v cols) := by
  rw [Table.search]
  have h : ∀ i ∈ searchPositions t v cols, i < t.records.length := by
    intro i hi
    obtain ⟨c, _, hm⟩ := searchPositions_mem hi
    exact hrange c v i hm
  rw [mapM_get_of_lt h, searchSpec, searchPositions, List.map_flatMap]

/-- C6: Search duplication semantics: on every reachable table, `search`
    returns exactly the records at the positions of `index[col][value]` for
    each requested column, ordered by an outer loop over the column list and
    an inner loop over that column's bucket (`searchSpec`), so a record
    holding the value in two requested columns appears once per requested
    column, in column-list order. -/
theorem claim6_search_duplication (name : String) (cols : List String) (ops : List TOp)
    (hnd : cols.Nodup) (v : Value) (in_columns : List String) :
    (reachT name cols ops).search v in_columns
      = some (searchSpec (reachT name cols ops) v in_columns) := by
  have g : goodTable (reachT name cols ops) := good_reachT hnd
  exact search_eq_searchSpec (fun c v q hm => ((good_memB g).mp hm).1) v in_columns

/-- Witness for C6: a record holding `7` in both requested columns `a` and
    `b` is returned twice, in column-list order. -/
theorem claim6_search_duplication_witness :
    (reachT "T" ["a", "b"] [TOp.add [[Value.int 7, Value.int 7]]]).search
        (Value.int 7) ["a", "b"]
      = some [[("a", Value.int 7), ("b", Value.int 7)],
              [("a", Value.int 7), ("b", Value.int 7)]] :=
  (claim6_search_duplication "T" ["a", "b"] [TOp.add [[Value.int 7, Value.int 7]]]
    (by decide) (Value.int 7) ["a", "b"]).trans (by decide)

/-- C10: Search totality: on every reachable table, `search` succeeds for
    every value and column-list argument, and a requested column that is not
    a key of the index, or a value with no bucket in a requested column,
    contributes zero results (dropping it leaves the result unchanged). -/
theorem claim10_search_total (name : String) (cols : List String) (ops : List TOp)
    (hnd : cols.Nodup) (v : Value) (in_columns : List String) :
    (∃ rs, (reachT name cols ops).search v in_columns = some rs) ∧
    (∀ c, alookup c (reachT name cols ops).indexed_data = none →
      (reachT name cols ops).search v (c :: in_columns)
        = (reachT name cols ops).search v in_columns) ∧
    (∀ c m, alookup c (reachT name cols ops).indexed_data = some m → alookup v m = none →
      (reachT name cols ops).search v (c :: in_columns)
        = (reachT name cols ops).search v in_columns) := by
  set t := reachT name cols ops with ht
  have hcons : ∀ c, searchPositions t v (c :: in_columns)
      = ((alookup v ((alookup c t.indexed_data).getD [])).getD [])
        ++ searchPositions t v in_columns := by
    intro c
    rw [searchPositions, searchPositions, List.flatMap_cons]
  have g : goodTable (reachT name cols ops) := good_reachT hnd
  refine ⟨⟨searchSpec t v in_columns,
    search_eq_searchSpec (fun c v q hm => ((good_memB g).mp hm).1) v in_columns⟩, ?_, ?_⟩
  · intro c hc
    rw [Table.search, Table.search, hcons c, hc]
    rfl
  · intro c m hc hv
    rw [Table.search, Table.search, hcons c, hc]
    show (((alookup v m).getD [] ++ searchPositions t v in_columns).mapM
      (fun i => t.records[i]?)) = _
    rw [hv]
    rfl

/-- Witness for C10: searching the Scenario A table for an unknown value and
    an unknown column succeeds with the empty result, and unknown
    columns/values contribute nothing. -/
theorem claim10_search_total_witness :
    (∃ rs, (reachT "Users" ["id", "name", "age"] opsA).search
      (Value.str "zzz") ["nope"] = some rs) ∧
    (∀ c, alookup c (reachT "Users" ["id", "name", "age"] opsA).indexed_data = none →
      (reachT "Users" ["id", "name", "age"] opsA).search (Value.str "zzz") (c :: ["nope"])
        = (reachT "Users" ["id", "name", "age"] opsA).search (Value.str "zzz") ["nope"]) ∧
    (∀ c m, alookup c (reachT "Users" ["id", "name", "age"] opsA).indexed_data = some m →
      alookup (Value.str "zzz") m = none →
      (reachT "Users" ["id", "name", "age"] opsA).search (Value.str "zzz") (c :: ["nope"])
        = (reachT "Users" ["id", "name", "age"] opsA).search (Value.str "zzz") ["nope"]) :=
  claim10_search_total "Users" ["id", "name", "age"] opsA (by decide)
    (Value.str "zzz") ["nope"]

/-- C9: the table engine's `update` never removes a value key from any
    column's index, even when removing the old position leaves the bucket
    empty — after `update(p, new)` where the old record held `v` in `c`, no
    other record holds `v` in `c`, and the new record does not re-use `v` at
    `c`, `index[c]` still maps `v` to an empty position list; only `delete`
    drops emptied buckets, and only for the deleted record's own values. -/
theorem claim9_update_keeps_empty_buckets (name : String) (cols : List String)
    (ops : List TOp) (hnd : cols.Nodup) :
    (∀ rn data tu, (reachT name cols ops).update rn data = some tu →
      (∀ c v, (bkt (reachT name cols ops).indexed_data c v).isSome = true →
        (bkt tu.indexed_data c v).isSome = true) ∧
      (∀ c v, alookup c (recOf (reachT name cols ops) (rn - 1)) = some v →
        bkt (reachT name cols ops).indexed_data c v = some [rn - 1] →
        alookup c ((reachT name cols ops).columns.zip data) ≠ some v →
        bkt tu.indexed_data c v = some [])) ∧
    (∀ rn td, (reachT name cols ops).delete rn = some td →
      ∀ c v, (bkt (reachT name cols ops).indexed_data c v).isSome = true →
        (bkt td.indexed_data c v).isSome = true ∨
        alookup c (recOf (reachT name cols ops) (rn - 1)) = some v) := by
  have g : goodTable (reachT name cols ops) := good_reachT hnd
  set t := reachT name cols ops with ht
  constructor
  · intro rn data tu hu
    obtain ⟨⟨h1, h2⟩, hlen, idx₁, hrm, htu⟩ := update_some hu
    subst htu
    set p := rn - 1 with hp
    have hpN : p < t.records.length := by omega
    set old := recOf t p with hold
    set newRec := t.columns.zip data with hnew
    have hofst : old.map Prod.fst = t.columns := good_rec_keys t g hpN
    have hond : (old.map Prod.fst).Nodup := by rw [hofst]; exact g.colsNodup
    have hnnd : (newRec.map Prod.fst).Nodup := by
      rw [zip_map_fst hlen]
      exact g.colsNodup
    obtain ⟨idx₁', hrm', hfst₁, hvk₁, hsame, hrem⟩ :=
      removeAll_spec hond (good_old_pairs g hpN)
    have heq : idx₁ = idx₁' := Option.some.inj (hrm.symm.trans hrm')
    subst heq
    have hkeep₁ : ∀ c v, (bkt t.indexed_data c v).isSome = true →
        (bkt idx₁ c v).isSome = true := by
      intro c v hs
      by_cases hcv : alookup c old = some v
      · cases hb : bkt t.indexed_data c v with
        | none => rw [hb] at hs; cases hs
        | some l =>
          obtain ⟨l₁, _, hbl₁⟩ := hrem c v l hcv hb
          rw [hbl₁]
          rfl
      · rw [hsame c v hcv]
        exact hs
    constructor
    · intro c v hs
      show (bkt (insertRec idx₁ newRec p) c v).isSome = true
      have hs₁ := hkeep₁ c v hs
      cases hc : alookup c newRec with
      | none =>
        rw [insertRec_bkt_none hc]
        exact hs₁
      | some v₀ =>
        have houter : (alookup c idx₁).isSome = true := by
          rw [bkt] at hs₁
          cases ho : alookup c idx₁ with
          | none => rw [ho] at hs₁; cases hs₁
          | some m => rfl
        rw [insertRec_bkt_some hnnd hc, if_pos houter]
        by_cases hv : v₀ = v
        · rw [if_pos hv]
          rfl
        · rw [if_neg hv]
          exact hs₁
    · intro c v hval hbkt hne
      obtain ⟨l₁, hrf, hbl₁⟩ := hrem c v [p] hval hbkt
      have hl₁ : l₁ = [] := by
        have : removeFirst p [p] = some [] := by simp [removeFirst]
        exact Option.some.inj (hrf.symm.trans this)
      subst hl₁
      show bkt (insertRec idx₁ newRec p) c v = some []
      cases hc : alookup c newRec with
      | none =>
        rw [insertRec_bkt_none hc]
        exact hbl₁
      | some v₀ =>
        have houter : (alookup c idx₁).isSome = true := by
          rw [bkt] at hbl₁
          cases ho : alookup c idx₁ with
          | none => rw [ho] at hbl₁; cases hbl₁
          | some m => rfl
        have hv : v₀ ≠ v := by
          rintro rfl
          exact hne hc
        rw [insertRec_bkt_some hnnd hc, if_pos houter, if_neg hv]
        exact hbl₁
  · intro rn td hd c v hs
    obtain ⟨⟨h1, h2⟩, idx₁, hrm, htd⟩ := delete_some hd
    subst htd
    set p := rn - 1 with hp
    have hpN : p < t.records.length := by omega
    set old := recOf t p with hold
    have hofst : old.map Prod.fst = t.columns := good_rec_keys t g hpN
    have hond : (old.map Prod.fst).Nodup := by rw [hofst]; exact g.colsNodup
    obtain ⟨idx₁', hrm', hfst₁, hvk₁, hsame, hrem⟩ :=
      delRemoveAll_spec hond g.vkeysNodup (good_old_pairs g hpN)
    have heq : idx₁ = idx₁' := Option.some.inj (hrm.symm.trans hrm')
    subst heq
    by_cases hcv : alookup c old = some v
    · exact Or.inr hcv
    · left
      show (bkt (renumber p idx₁) c v).isSome = true
      rw [bkt_renumber, hsame c v hcv]
      cases hb : bkt t.indexed_data c v with
      | none => rw [hb] at hs; cases hs
      | some l => rfl

/-- Witness for C9: Scenario B's update on the Scenario A table leaves
    `index["age"]` with key `30` mapped to an empty bucket. -/
theorem claim9_update_keeps_empty_buckets_witness :
    bkt (((reachT "Users" ["id", "name", "age"] opsA).update 1
        [Value.int 1, Value.str "Alice", Value.int 31]).get!).indexed_data
      "age" (Value.int 30) = some [] := by
  have h := (claim9_update_keeps_empty_buckets "Users" ["id", "name", "age"] opsA
    (by decide)).1 1 [Value.int 1, Value.str "Alice", Value.int 31]
    (((reachT "Users" ["id", "name", "age"] opsA).update 1
        [Value.int 1, Value.str "Alice", Value.int 31]).get!) (by decide)
  exact h.2 "age" (Value.int 30) (by decide) (by decide) (by decide)

/-! ### Snapshot round-trip: the rebuilt index -/

theorem rebuildFrom_map_fst {i : Nat} {rs : List Record} {idx : Index} :
    (rebuildFrom i rs idx).map Prod.fst = idx.map Prod.fst := by
  induction rs generalizing i idx with
  | nil => rfl
  | cons r rest ih =>
    rw [rebuildFrom, ih, insertRec_map_fst]

/-- Buckets ever created by the rebuild replay are nonempty. -/
theorem insertRec_nonempty {idx : Index} {pairs : Record} {n : Nat}
    (h : ∀ c m v l, alookup c idx = some m → alookup v m = some l → l ≠ []) :
    ∀ c m v l, alookup c (insertRec idx pairs n) = some m → alookup v m = some l → l ≠ [] := by
  induction pairs generalizing idx with
  | nil => exact h
  | cons cv rest ih =>
    obtain ⟨c₀, v₀⟩ := cv
    rw [insertRec_cons]
    refine ih ?_
    intro c m v l hc hv
    by_cases hcc : c = c₀
    · subst hcc
      rw [alookup_aupdate_self] at hc
      cases hm₀ : alookup c idx with
      | none => rw [hm₀] at hc; cases hc
      | some m₀ =>
        rw [hm₀, Option.map_some'] at hc
        have hm : m = bucketAppend v₀ n m₀ := (Option.some.inj hc).symm
        subst hm
        by_cases hvv : v₀ = v
        · subst hvv
          rw [alookup_bucketAppend_self] at hv
          have := (Option.some.inj hv).symm
          rw [this]
          simp
        · rw [alookup_bucketAppend_ne hvv] at hv
          exact h c m₀ v l hm₀ hv
    · rw [alookup_aupdate_ne (fun he => hcc he.symm)] at hc
      exact h c m v l hc hv

theorem rebuildFrom_nonempty {rs : List Record} {i : Nat} {idx : Index}
    (hbase : ∀ c m v l, alookup c idx = some m → alookup v m = some l → l ≠ []) :
    ∀ c m v l, alookup c (rebuildFrom i rs idx) = some m → alookup v m = some l → l ≠ [] := by
  induction rs generalizing i idx with
  | nil => exact hbase
  | cons r rest ih =>
    rw [rebuildFrom]
    exact ih (insertRec_nonempty hbase)

/-- Membership characterisation of the rebuild replay: a position is filed
    exactly when it was filed before the replay or some replayed record (at
    its enumeration position) holds the value in a column the index knows. -/
theorem rebuildFrom_mem {rs : List Record} {i : Nat} {idx : Index} {c : String} {v : Value}
    {q : Nat} (hnd : ∀ r ∈ rs, (r.map Prod.fst).Nodup) :
    (∃ l, bkt (rebuildFrom i rs idx) c v = some l ∧ q ∈ l) ↔
    ((∃ l, bkt idx c v = some l ∧ q ∈ l) ∨
     (∃ j, j < rs.length ∧ q = i + j ∧ alookup c (rs.getD j []) = some v ∧
       (alookup c idx).isSome = true)) := by
  induction rs generalizing i idx with
  | nil =>
    rw [rebuildFrom]
    constructor
    · exact Or.inl
    · rintro (h | ⟨j, hj, _⟩)
      · exact h
      · cases hj
  | cons r rest ih =>
    rw [rebuildFrom]
    have hrnd : (r.map Prod.fst).Nodup := hnd r (List.mem_cons_self _ _)
    have hrest : ∀ r₀ ∈ rest, (r₀.map Prod.fst).Nodup :=
      fun r₀ h₀ => hnd r₀ (List.mem_cons_of_mem _ h₀)
    have hsome : (alookup c (insertRec idx r i)).isSome = true
        ↔ (alookup c idx).isSome = true := by
      rw [alookup_isSome, alookup_isSome, insertRec_map_fst]
    have hstep : (∃ l, bkt (insertRec idx r i) c v = some l ∧ q ∈ l) ↔
        ((∃ l, bkt idx c v = some l ∧ q ∈ l) ∨
          (alookup c r = some v ∧ q = i ∧ (alookup c idx).isSome = true)) := by
      cases hc : alookup c r with
      | none =>
        rw [insertRec_bkt_none hc]
        constructor
        · exact Or.inl
        · rintro (h | ⟨he, _⟩)
          · exact h
          · cases he
      | some v₀ =>
        rw [insertRec_bkt_some hrnd hc]
        by_cases hs : (alookup c idx).isSome = true
        · rw [if_pos hs]
          by_cases hv : v₀ = v
          · subst hv
            rw [if_pos rfl]
            constructor
            · rintro ⟨l, hl, hql⟩
              have he : l = (bkt idx c v₀).getD [] ++ [i] := (Option.some.inj hl).symm
              subst he
              rcases List.mem_append.mp hql with hql | hql
              · cases hb : bkt idx c v₀ with
                | none => rw [hb] at hql; cases hql
                | some l₀ =>
                  rw [hb] at hql
                  exact Or.inl ⟨l₀, rfl, hql⟩
              · rw [List.mem_singleton] at hql
                exact Or.inr ⟨rfl, hql, hs⟩
            · rintro (⟨l, hl, hql⟩ | ⟨_, he, _⟩)
              · refine ⟨(bkt idx c v₀).getD [] ++ [i], rfl, ?_⟩
                rw [hl]
                exact List.mem_append_left _ hql
              · refine ⟨(bkt idx c v₀).getD [] ++ [i], rfl, ?_⟩
                rw [he]
                exact List.mem_append_right _ (List.mem_singleton.mpr rfl)
          · rw [if_neg hv]
            constructor
            · exact Or.inl
            · rintro (h | ⟨he, _⟩)
              · exact h
              · exact absurd (Option.some.inj he) hv
        · rw [if_neg hs]
          constructor
          · rintro ⟨l, hl, _⟩
            cases hl
          · rintro (⟨l, hl, hql⟩ | ⟨_, _, hs'⟩)
            · rw [bkt] at hl
              cases ho : alookup c idx with
              | none => rw [ho] at hl; cases hl
              | some m => rw [ho] at hs; cases hs rfl
            · exact absurd hs' hs
    rw [ih hrest, hstep, hsome]
    constructor
    · rintro ((h | ⟨hc, he, hs⟩) | ⟨j, hj, he, hc, hs⟩)
      · exact Or.inl h
      · exact Or.inr ⟨0, by simp, by omega, by simpa using hc, hs⟩
      · refine Or.inr ⟨j + 1, by simpa using hj, by omega, ?_, hs⟩
        simpa using hc
    · rintro (h | ⟨j, hj, he, hc, hs⟩)
      · exact Or.inl (Or.inl h)
      · cases j with
        | zero =>
          refine Or.inl (Or.inr ⟨by simpa using hc, by omega, hs⟩)
        | succ j₀ =>
          refine Or.inr ⟨j₀, by simpa using hj, by omega, ?_, hs⟩
          simpa using hc

/-- C3 counterexample: on the reachable Scenario B table, the round-trip
    preserves the records but not the index key sets — the empty bucket key
    `30` of column `age` (left behind by `update`) is absent from the rebuilt
    index, so "decoding the encoded snapshot yields a table whose secondary
    index is identical (same key sets per column)" fails as stated. -/
theorem claim3_roundtrip_counterexample :
    (roundtrip (reachT "Users" ["id", "name", "age"] opsB)).records
        = (reachT "Users" ["id", "name", "age"] opsB).records ∧
    bkt (reachT "Users" ["id", "name", "age"] opsB).indexed_data
        "age" (Value.int 30) = some [] ∧
    bkt (roundtrip (reachT "Users" ["id", "name", "age"] opsB)).indexed_data
        "age" (Value.int 30) = none := by
  refine ⟨by decide, by decide, by decide⟩

/-- C3 (amended): Snapshot round-trip up to empty buckets: for every reachable
    table, decoding the encoded snapshot yields a table with identical
    columns, an identical record sequence, and a secondary index identical up
    to the discarding of empty buckets — the same positions are filed under
    every `(column, value)` pair, and the rebuilt index has a key exactly
    where the original has a key with a nonempty bucket. -/
theorem claim3_roundtrip_amended (name : String) (cols : List String) (ops : List TOp)
    (hnd : cols.Nodup) :
    (roundtrip (reachT name cols ops)).columns = (reachT name cols ops).columns ∧
    (roundtrip (reachT name cols ops)).records = (reachT name cols ops).records ∧
    (∀ c v q, memB (roundtrip (reachT name cols ops)) c v q
        ↔ memB (reachT name cols ops) c v q) ∧
    (∀ c v, (bkt (roundtrip (reachT name cols ops)).indexed_data c v).isSome = true
        ↔ ∃ l, bkt (reachT name cols ops).indexed_data c v = some l ∧ l ≠ []) := by
  have g : goodTable (reachT name cols ops) := good_reachT hnd
  set t := reachT name cols ops with ht
  have hcols : (roundtrip t).columns = t.columns := rfl
  have hrecs : (roundtrip t).records = t.records := rfl
  have hidx : (roundtrip t).indexed_data
      = rebuildFrom 0 t.records (t.columns.map (fun c => (c, []))) := rfl
  have hrnd : ∀ r ∈ t.records, (r.map Prod.fst).Nodup := by
    intro r hr
    rw [g.recKeys r hr]
    exact g.colsNodup
  have hmem0 : ∀ c v, bkt (t.columns.map (fun c₀ => ((c₀ : String), ([] : ValMap)))) c v
      = none := by
    intro c v
    rw [bkt, alookup_fresh]
    by_cases h : c ∈ t.columns <;> simp [h, alookup]
  have hmem : ∀ c v q, memB (roundtrip t) c v q ↔ memB t c v q := by
    intro c v q
    rw [memB, memB]
    show (∃ l, bkt (rebuildFrom 0 t.records (t.columns.map (fun c₀ => (c₀, [])))) c v
        = some l ∧ q ∈ l) ↔ _
    rw [rebuildFrom_mem hrnd]
    constructor
    · rintro (⟨l, hl, _⟩ | ⟨j, hj, he, hval, _⟩)
      · rw [hmem0 c v] at hl
        cases hl
      · have : q = j := by omega
        subst this
        exact ((good_memB g).mpr ⟨hj, hval⟩)
    · intro hm
      obtain ⟨hq, hval⟩ := (good_memB g).mp hm
      refine Or.inr ⟨q, hq, by omega, hval, ?_⟩
      rw [alookup_isSome]
      show c ∈ (t.columns.map (fun c₀ => (c₀, ([] : ValMap)))).map Prod.fst
      have hcmem : c ∈ t.columns := by
        rw [← good_rec_keys t g hq]
        exact List.mem_map_of_mem Prod.fst (alookup_mem hval)
      simpa [List.map_map] using hcmem
  refine ⟨hcols, hrecs, hmem, ?_⟩
  intro c v
  have hne : ∀ c₁ m v₁ l, alookup c₁ (roundtrip t).indexed_data = some m →
      alookup v₁ m = some l → l ≠ [] := by
    have hbase : ∀ c₂ m₂ v₂ l₂,
        alookup c₂ (t.columns.map (fun c₀ => ((c₀ : String), ([] : ValMap)))) = some m₂ →
        alookup v₂ m₂ = some l₂ → l₂ ≠ [] := by
      intro c₂ m₂ v₂ l₂ hc₂ hv₂
      rw [alookup_fresh] at hc₂
      by_cases h : c₂ ∈ t.columns
      · rw [if_pos h] at hc₂
        have : m₂ = [] := (Option.some.inj hc₂).symm
        subst this
        cases hv₂
      · rw [if_neg h] at hc₂
        cases hc₂
    intro c₁ m v₁ l h₁ h₂
    exact rebuildFrom_nonempty hbase c₁ m v₁ l h₁ h₂
  constructor
  · intro hs
    cases hb : bkt (roundtrip t).indexed_data c v with
    | none => rw [hb] at hs; cases hs
    | some l =>
      have hlne : l ≠ [] := by
        rw [bkt] at hb
        cases hc : alookup c (roundtrip t).indexed_data with
        | none => rw [hc] at hb; cases hb
        | some m =>
          rw [hc, Option.some_bind] at hb
          exact hne c m v l hc hb
      obtain ⟨q, hq⟩ := List.exists_mem_of_ne_nil l hlne
      have := (hmem c v q).mp ⟨l, hb, hq⟩
      obtain ⟨l₀, hl₀, hql₀⟩ := this
      refine ⟨l₀, hl₀, ?_⟩
      rintro rfl
      cases hql₀
  · rintro ⟨l, hl, hlne⟩
    obtain ⟨q, hq⟩ := List.exists_mem_of_ne_nil l hlne
    obtain ⟨l₁, hl₁, hql₁⟩ := (hmem c v q).mpr ⟨l, hl, hq⟩
    rw [hl₁]
    rfl

/-- Witness for C3 (amended) at the Scenario B table. -/
theorem claim3_roundtrip_amended_witness :
    (roundtrip (reachT "Users" ["id", "name", "age"] opsB)).columns
        = (reachT "Users" ["id", "name", "age"] opsB).columns ∧
    (roundtrip (reachT "Users" ["id", "name", "age"] opsB)).records
        = (reachT "Users" ["id", "name", "age"] opsB).records ∧
    (∀ c v q, memB (roundtrip (reachT "Users" ["id", "name", "age"] opsB)) c v q
        ↔ memB (reachT "Users" ["id", "name", "age"] opsB) c v q) ∧
    (∀ c v, (bkt (roundtrip (reachT "Users" ["id", "name", "age"] opsB)).indexed_data
          c v).isSome = true
        ↔ ∃ l, bkt (reachT "Users" ["id", "name", "age"] opsB).indexed_data c v = some l
            ∧ l ≠ []) :=
  claim3_roundtrip_amended "Users" ["id", "name", "age"] opsB (by decide)

/-! ### Engine-level claims -/

/-- C2 (evaluation of the code at the claim's scenario): the engine `update`
    reports success, but it ran `Table.update` on a process-pool copy whose
    mutation is discarded, so `search("Alice", ["name"])` still returns the
    record with `age = 30` (the claim says 31), and `search(30, ["age"])`
    still returns that record (the claim says the empty list). -/
theorem claim2_update_visibility_code_eval :
    (dbA.update "Users" 1 [Value.int 1, Value.str "Alice", Value.int 31]).1
        = Except.ok () ∧
    (dbB.search "Users" (Value.str "Alice") ["name"]).1 = Except.ok [aliceRec30] ∧
    (dbB.search "Users" (Value.int 30) ["age"]).1 = Except.ok [aliceRec30] :=
  ⟨by decide, by decide, by decide⟩

/-- C4 (evaluation of the code at the claim's failing input): adding a batch
    whose second record has the wrong arity fails with the schema error, but
    the first record has already been appended to the Record Store and filed
    in the Secondary Index (partial application), while no snapshot is
    written. -/
theorem claim4_add_atomicity_code_eval :
    (dbU.add "Users" badBatch).1 = Except.error DBError.valueError ∧
    (alookup "Users" (dbU.add "Users" badBatch).2.tables).map (fun t => t.records)
        = some [aliceRec30] ∧
    (alookup "Users" (dbU.add "Users" badBatch).2.tables).map
        (fun t => bkt t.indexed_data "name" (Value.str "Alice")) = some (some [0]) ∧
    alookup "Users" (dbU.add "Users" badBatch).2.disk = none :=
  ⟨by decide, by decide, by decide, by decide⟩

/-- A single engine call never deletes or overwrites an existing cache
    entry: mutations and table creation do not touch the cache, a search hit
    returns early, and a search miss appends a fresh key. -/
theorem applyDB_cache_mono {db : ElementalDB} {key : CacheKey} {r : List Record}
    (h : alookup key db.cache = some r) (op : DBOp) :
    alookup key (applyDB db op).cache = some r := by
  cases op with
  | tableCreate n cols ow =>
    show alookup key (db.table_create n cols ow).2.cache = some r
    rw [ElementalDB.table_create]
    split
    · exact h
    · split
      · exact h
      · exact h
  | add tn rs =>
    show alookup key (db.add tn rs).2.cache = some r
    rw [ElementalDB.add]
    split
    · exact h
    · split
      · exact h
      · dsimp only
        split
        · rw [ElementalDB.save_table]
          split
          · exact h
          · exact h
        · exact h
  | update tn rn data =>
    show alookup key (db.update tn rn data).2.cache = some r
    rw [ElementalDB.update]
    split
    · exact h
    · split
      · exact h
      · split
        · exact h
        · rw [ElementalDB.save_table]
          split
          · exact h
          · exact h
  | delete tn rn =>
    show alookup key (db.delete tn rn).2.cache = some r
    rw [ElementalDB.delete]
    split
    · exact h
    · split
      · exact h
      · split
        · exact h
        · rw [ElementalDB.save_table]
          split
          · exact h
          · exact h
  | search tn v cols =>
    show alookup key (db.search tn v cols).2.cache = some r
    rw [ElementalDB.search]
    split
    · exact h
    · split
      · exact h
      · split
        · exact h
        · exact alookup_append_left h
  | signin email => exact h
  | logout => exact h

/-- C7: Cache hit behaviour: once a search result is stored under a key, it
    survives every later engine call verbatim — no mutation, table creation,
    sign-in/out or other search invalidates or overwrites it — and a later
    search with that key returns the stored result unchanged, without touching
    the Record Store (the engine state is returned as-is). -/
theorem claim7_cache_hit (db : ElementalDB) (tn : String) (v : Value)
    (cols : List String) (r : List Record)
    (h : alookup (tn, v, cols) db.cache = some r) (ops : List DBOp) :
    alookup (tn, v, cols) (runDB db ops).cache = some r ∧
    (runDB db ops).search tn v cols = (Except.ok r, runDB db ops) := by
  have hmono : alookup (tn, v, cols) (runDB db ops).cache = some r := by
    induction ops generalizing db with
    | nil => exact h
    | cons op rest ih =>
      show alookup (tn, v, cols) (runDB (applyDB db op) rest).cache = some r
      exact ih _ (applyDB_cache_mono h op)
  refine ⟨hmono, ?_⟩
  rw [ElementalDB.search, hmono]

/-- Witness for C7: the Scenario A search result for Alice stays cached and is
    returned verbatim after an add and a delete have mutated the table. -/
theorem claim7_cache_hit_witness :
    alookup ("Users", Value.str "Alice", ["name"])
      (runDB dbCache [DBOp.add "Users" [[Value.int 3, Value.str "Carol", Value.int 22]],
        DBOp.delete "Users" 1]).cache = some [aliceRec30] ∧
    (runDB dbCache [DBOp.add "Users" [[Value.int 3, Value.str "Carol", Value.int 22]],
        DBOp.delete "Users" 1]).search "Users" (Value.str "Alice") ["name"]
      = (Except.ok [aliceRec30],
         runDB dbCache [DBOp.add "Users" [[Value.int 3, Value.str "Carol", Value.int 22]],
           DBOp.delete "Users" 1]) :=
  claim7_cache_hit dbCache "Users" (Value.str "Alice") ["name"] [aliceRec30] (by decide)
    [DBOp.add "Users" [[Value.int 3, Value.str "Carol", Value.int 22]],
     DBOp.delete "Users" 1]

/-- C8: Authentication gate: with auth enabled and no signed-in principal,
    each of `add`, `update`, `delete` and `table_create` fails with the
    permission error and returns the engine state unchanged — same table set,
    same records and indexes, same cache, same on-disk snapshots. -/
theorem claim8_auth_gate (db : ElementalDB) (he : db.auth_enabled = true)
    (hu : db.current_user = none) :
    (∀ tn rs, db.add tn rs = (Except.error DBError.permissionError, db)) ∧
    (∀ tn rn data, db.update tn rn data = (Except.error DBError.permissionError, db)) ∧
    (∀ tn rn, db.delete tn rn = (Except.error DBError.permissionError, db)) ∧
    (∀ n cols ow, db.table_create n cols ow = (Except.error DBError.permissionError, db)) := by
  refine ⟨fun tn rs => ?_, fun tn rn data => ?_, fun tn rn => ?_, fun n cols ow => ?_⟩
  · rw [ElementalDB.add, if_pos ⟨he, hu⟩]
  · rw [ElementalDB.update, if_pos ⟨he, hu⟩]
  · rw [ElementalDB.delete, if_pos ⟨he, hu⟩]
  · rw [ElementalDB.table_create, if_pos ⟨he, hu⟩]

/-- Witness for C8: a fresh auth-enabled engine rejects an `add`. -/
theorem claim8_auth_gate_witness :
    (ElementalDB.init true).add "Users" [[Value.int 1]]
      = (Except.error DBError.permissionError, ElementalDB.init true) :=
  (claim8_auth_gate (ElementalDB.init true) rfl rfl).1 "Users" [[Value.int 1]]

end ElementalSpec
